import Mathlib

/-!
Shallow embedding of the dependency-resolution core of the pip-rs repository
(requirement/version model, PEP-508-style marker evaluator, candidate
selector, dependency cache, lock file, and the concurrent graph-walking
resolver), together with theorems settling the frozen claims about it.

Rust strings are modelled as Lean `String`s; parsing works on `List Char`
(`String.data`).  Rust byte-level iteration coincides with char-level
iteration on ASCII input, and every string constant appearing in the
claims is ASCII.  Rust `u32` arithmetic is modelled by `Nat` with the
explicit `< 2 ^ 32` bound where the source parses a `u32`.
-/

set_option maxHeartbeats 2000000

namespace PipRs

/-- Decidable equality for `Except`, used to evaluate parser results on
concrete inputs. -/
instance {ε α : Type} [DecidableEq ε] [DecidableEq α] : DecidableEq (Except ε α) := by
  intro a b
  cases a <;> cases b <;> first
    | (rename_i x y
       exact match decEq x y with
         | isTrue h => isTrue (by rw [h])
         | isFalse h => isFalse (by intro hc; cases hc; exact h rfl))
    | exact isFalse (by intro hc; cases hc)

/-! ## Character and list helpers (models of Rust `str` primitives) -/

/-- Model of Rust `str::trim_start`: drop leading whitespace. -/
def trimLeftChars (cs : List Char) : List Char := cs.dropWhile Char.isWhitespace

/-- Model of Rust `str::trim_end`: drop trailing whitespace. -/
def trimRightChars (cs : List Char) : List Char :=
  (cs.reverse.dropWhile Char.isWhitespace).reverse

/-- Model of Rust `str::trim`. -/
def trimChars (cs : List Char) : List Char := trimRightChars (trimLeftChars cs)

/-- Model of Rust `str::trim_matches(m)`: strip every leading and trailing
occurrence of the character `m`. -/
def trimMatchesChar (m : Char) (cs : List Char) : List Char :=
  ((cs.dropWhile (· = m)).reverse.dropWhile (· = m)).reverse

/-- Model of Rust `str::split(sep)` on a single-character pattern: splitting
the empty string yields one empty piece, like Rust. -/
def splitOnSep (sep : Char) : List Char → List (List Char)
  | [] => [[]]
  | c :: rest =>
    if c = sep then [] :: splitOnSep sep rest
    else
      match splitOnSep sep rest with
      | [] => [[c]]
      | g :: gs => (c :: g) :: gs

/-- First index of a character satisfying `pred`
(model of Rust `str::find` for a character pattern). -/
def findIdxChar (pred : Char → Bool) : List Char → Option Nat
  | [] => none
  | c :: rest => if pred c then some 0 else (findIdxChar pred rest).map (· + 1)

/-- First index of an occurrence of the pattern `pat` in `l`
(model of Rust `str::find` for a literal pattern). -/
def findSeqIdx (pat : List Char) : List Char → Option Nat
  | [] => if pat = [] then some 0 else none
  | c :: rest =>
    if pat.isPrefixOf (c :: rest) then some 0
    else (findSeqIdx pat rest).map (· + 1)

/-- Model of Rust `str::contains` for a literal pattern. -/
def containsSeq (pat l : List Char) : Bool := (findSeqIdx pat l).isSome

/-- Association-list lookup, modelling `HashMap::get`. -/
def lookupAssoc {α : Type} (l : List (String × α)) (k : String) : Option α :=
  (l.find? (fun p => p.1 = k)).map Prod.snd

/-- Association-list insert, modelling `HashMap::insert`: replace the entry
with the same key if present, otherwise add one. -/
def insertAssoc {α : Type} (l : List (String × α)) (k : String) (v : α) :
    List (String × α) :=
  if (l.find? (fun p => p.1 = k)).isSome then
    l.map (fun p => if p.1 = k then (k, v) else p)
  else l ++ [(k, v)]

/-- ASCII lowercase of a string (model of Rust `str::to_lowercase` on the
ASCII inputs this development quantifies over). -/
def lowerAscii (s : String) : String := String.mk (s.data.map Char.toLower)

/-! ## Requirement and version data model (src/src/models/requirement.rs) -/

/-- Version comparison operators (`VersionOp`). -/
inductive VersionOp where
  | eq
  | notEq
  | lt
  | ltEq
  | gt
  | gtEq
  | compatible
deriving DecidableEq, Repr

/-- One version constraint clause (`VersionSpec`). -/
structure VersionSpec where
  op : VersionOp
  version : String
deriving DecidableEq, Repr

/-- A parsed requirement (`Requirement`). -/
structure Requirement where
  name : String
  specs : List VersionSpec
  extras : List String
  marker : Option String
deriving DecidableEq, Repr

/-- Package metadata record (src/src/models/package.rs, `Package`). -/
structure Package where
  name : String
  version : String
  summary : Option String
  home_page : Option String
  author : Option String
  license : Option String
  requires_python : Option String
  requires_dist : List String
  classifiers : List String
deriving DecidableEq, Repr

/-! ## Version parsing and comparison
(crates/pip-rs-core/src/resolver/resolver.rs, `parse_version_cached` and
`check_version_spec`; the version-parse cache is a pure memo keyed by the
literal string, so the parse is modelled as the pure function it caches) -/

/-- Digit run to a number. -/
def digitsToNat (cs : List Char) : Nat :=
  cs.foldl (fun acc c => acc * 10 + (c.toNat - '0'.toNat)) 0

/-- Model of Rust `str::parse::<u32>()`: an optional leading plus sign, then
one or more digits, value below `2 ^ 32`. -/
def parseU32 (cs : List Char) : Option Nat :=
  let ds := match cs with
    | '+' :: rest => rest
    | other => other
  if ds ≠ [] ∧ ds.all Char.isDigit = true ∧ digitsToNat ds < 2 ^ 32 then
    some (digitsToNat ds)
  else none

/-- `version.split('.').filter_map(|p| p.parse::<u32>().ok())`. -/
def parseVersionParts (s : String) : List Nat :=
  (splitOnSep '.' s.data).filterMap parseU32

/-- Comparison of exhausted left components (all `0`) against the remaining
right components: the first nonzero right component decides. -/
def cmpTailZero : List Nat → Ordering
  | [] => .eq
  | b :: bs =>
    match compare 0 b with
    | .eq => cmpTailZero bs
    | o => o

/-- The component-wise ordinal comparison loop of `check_version_spec`:
components compared left to right, a missing component is `0`, first
difference decides. -/
def cmpParts : List Nat → List Nat → Ordering
  | [], bs => cmpTailZero bs
  | a :: as_, [] =>
    match compare a 0 with
    | .eq => cmpParts as_ []
    | o => o
  | a :: as_, b :: bs =>
    match compare a b with
    | .eq => cmpParts as_ bs
    | o => o

/-- `Resolver::check_version_spec`
(crates/pip-rs-core/src/resolver/resolver.rs lines 266-300). -/
def checkVersionSpec (version : String) (spec : VersionSpec) : Bool :=
  let v1_parts := parseVersionParts version
  let v2_parts := parseVersionParts spec.version
  let cmp := cmpParts v1_parts v2_parts
  match spec.op with
  | .eq => cmp = .eq
  | .notEq => cmp ≠ .eq
  | .lt => cmp = .lt
  | .ltEq => cmp ≠ .gt
  | .gt => cmp = .gt
  | .gtEq => cmp ≠ .lt
  | .compatible =>
    let v1_major := v1_parts.getD 0 0
    let v1_minor := v1_parts.getD 1 0
    let v2_major := v2_parts.getD 0 0
    let v2_minor := v2_parts.getD 1 0
    v1_major = v2_major ∧ v1_minor = v2_minor ∧ cmp ≠ .lt

/-- `Resolver::satisfies_version`: the AND of all clauses (trivially true for
an empty clause list). -/
def satisfiesVersion (version : String) (specs : List VersionSpec) : Bool :=
  specs.all (checkVersionSpec version)

/-! ## Requirement parsing (src/src/models/requirement.rs, `Requirement::from_str`
and `parse_version_specs`) -/

/-- A character the name scan consumes: alphanumeric, underscore or hyphen. -/
def isNameChar (c : Char) : Bool := c.isAlphanum || c = '_' || c = '-'

/-- A character the version scan keeps: alphanumeric, dot, star or plus. -/
def isVersionChar (c : Char) : Bool := c.isAlphanum || c = '.' || c = '*' || c = '+'

/-- The ordered operator recognition of `parse_version_specs`: the operator
and how many characters it occupies. -/
def recognizeOp (cs : List Char) : Option (VersionOp × Nat) :=
  if cs.take 2 = ['=', '='] then some (.eq, 2)
  else if cs.take 2 = ['!', '='] then some (.notEq, 2)
  else if cs.take 2 = ['<', '='] then some (.ltEq, 2)
  else if cs.take 2 = ['>', '='] then some (.gtEq, 2)
  else if cs.take 1 = ['<'] then some (.lt, 1)
  else if cs.take 1 = ['>'] then some (.gt, 1)
  else if cs.take 2 = ['~', '='] then some (.compatible, 2)
  else none

theorem length_trimLeft_le (cs : List Char) : (trimLeftChars cs).length ≤ cs.length := by
  induction cs with
  | nil => simp [trimLeftChars]
  | cons c rest ih =>
    simp only [trimLeftChars, List.dropWhile] at ih ⊢
    split
    · exact Nat.le_trans ih (Nat.le_succ _)
    · simp

/-- The clause loop of `parse_version_specs`.  One iteration: skip leading
whitespace, recognize the operator, skip whitespace, scan version characters
up to the first comma (characters outside the version alphabet are stepped
over without being kept), fail on an empty version, then continue after the
comma if one follows.  The `fuel` argument is a modelling device that keeps
the recursion structural (the Rust loop advances a byte position inside one
slice); each pass past a comma strictly shortens the remaining text, so any
fuel above the text length — which `parseVersionSpecs` supplies — is never
exhausted, as the fuel-irrelevance lemma below proves. -/
def parseSpecsGo : Nat → List Char → Except String (List VersionSpec)
  | 0, _ => .error "Empty version in spec"
  | fuel + 1, cs =>
    if trimLeftChars cs = [] then .ok []
    else
      match recognizeOp (trimLeftChars cs) with
      | none => .error ("Invalid version spec: " ++ String.mk (trimLeftChars cs))
      | some opskip =>
        let rest := trimLeftChars ((trimLeftChars cs).drop opskip.2)
        let k := (findIdxChar (· = ',') rest).getD rest.length
        let version := (rest.take k).filter isVersionChar
        if version = [] then .error "Empty version in spec"
        else
          match rest.drop k with
          | [] => .ok [⟨opskip.1, String.mk version⟩]
          | _ :: t =>
            match parseSpecsGo fuel t with
            | .ok specs => .ok (⟨opskip.1, String.mk version⟩ :: specs)
            | .error e => .error e

/-- `parse_version_specs` (src/src/models/requirement.rs lines 86-142). -/
def parseVersionSpecs (cs : List Char) : Except String (List VersionSpec) :=
  parseSpecsGo (cs.length + 1) cs

/-- `Requirement::from_str` (src/src/models/requirement.rs lines 32-83):
split on the first semicolon for the marker, greedily scan the name, read a
bracketed extras list when one follows, and parse the rest as version
clauses. -/
def parseRequirement (s : String) : Except String Requirement :=
  let cs := trimChars s.data
  let pieces : List Char × Option (List Char) :=
    match findIdxChar (· = ';') cs with
    | some idx => (trimChars (cs.take idx), some (trimChars (cs.drop (idx + 1))))
    | none => (cs, none)
  let req_part := pieces.1
  let marker := pieces.2
  let name := req_part.takeWhile isNameChar
  let remainder := req_part.dropWhile isNameChar
  let bracketed : List String × Nat :=
    match remainder with
    | '[' :: _ =>
      match findIdxChar (· = ']') remainder with
      | some bracket_end =>
        (((splitOnSep ',' ((remainder.drop 1).take (bracket_end - 1))).map
            (fun e => String.mk (trimChars e))), bracket_end + 1)
      | none => ([], 0)
    | _ => ([], 0)
  let extras := bracketed.1
  let spec_start := bracketed.2
  let version_part := trimChars (remainder.drop spec_start)
  let specsRes : Except String (List VersionSpec) :=
    if version_part = [] then .ok [] else parseVersionSpecs version_part
  match specsRes with
  | .error e => .error e
  | .ok specs =>
    .ok { name := String.mk ((name.map Char.toLower).map (fun c => if c = '_' then '-' else c)),
          specs := specs,
          extras := extras,
          marker := marker.map String.mk }

/-! ## Environment and marker evaluator (src/src/models/marker.rs) -/

/-- Environment variables for marker evaluation (`Environment`). -/
structure Environment where
  python_version : String
  python_full_version : String
  os_name : String
  sys_platform : String
  platform_release : String
  platform_system : String
  platform_version : String
  platform_machine : String
  platform_python_implementation : String
  implementation_name : String
  implementation_version : String
deriving DecidableEq, Repr

/-- Marker comparison operators (`MarkerOp`). -/
inductive MarkerOp where
  | eq
  | notEq
  | lt
  | ltEq
  | gt
  | gtEq
  | inOp
  | notIn
deriving DecidableEq, Repr

/-- A parsed marker: the raw (trimmed) expression string (`Marker`). -/
structure Marker where
  expression : String
deriving DecidableEq, Repr

/-- `Marker::parse`: trim, fail on an empty string, keep the text. -/
def Marker.parse (s : String) : Except String Marker :=
  if trimChars s.data = [] then .error "Empty marker"
  else .ok ⟨String.mk (trimChars s.data)⟩

/-- `get_variable_value`: unknown variables resolve to the empty string. -/
def getVariableValue (env : Environment) (var : String) : String :=
  if var = "python_version" then env.python_version
  else if var = "python_full_version" then env.python_full_version
  else if var = "os_name" then env.os_name
  else if var = "sys_platform" then env.sys_platform
  else if var = "platform_release" then env.platform_release
  else if var = "platform_system" then env.platform_system
  else if var = "platform_version" then env.platform_version
  else if var = "platform_machine" then env.platform_machine
  else if var = "platform_python_implementation" then env.platform_python_implementation
  else if var = "implementation_name" then env.implementation_name
  else if var = "implementation_version" then env.implementation_version
  else ""

/-- `Marker::compare_versions`: dotted numeric comparison returning an
integer sign. -/
def markerCompareVersions (v1 v2 : String) : Int :=
  match cmpParts (parseVersionParts v1) (parseVersionParts v2) with
  | .lt => -1
  | .eq => 0
  | .gt => 1

/-- `Marker::evaluate_condition`: trim, strip one matching pair of outer
parentheses, pick the operator by the ordered substring tests of the source,
split at its first occurrence, strip quotes, and compare. -/
def evaluateCondition (env : Environment) (cond0 : List Char) : Bool :=
  let cond1 := trimChars cond0
  let cond :=
    match cond1 with
    | '(' :: _ => if cond1.getLast? = some ')' then (cond1.drop 1).take (cond1.length - 2) else cond1
    | _ => cond1
  let opSel : Option (MarkerOp × List Char) :=
    if containsSeq ['!', '='] cond then some (.notEq, ['!', '='])
    else if containsSeq ['=', '='] cond then some (.eq, ['=', '='])
    else if containsSeq ['<', '='] cond then some (.ltEq, ['<', '='])
    else if containsSeq ['>', '='] cond then some (.gtEq, ['>', '='])
    else if containsSeq ['<'] cond then some (.lt, ['<'])
    else if containsSeq ['>'] cond then some (.gt, ['>'])
    else if containsSeq [' ', 'i', 'n', ' '] cond then some (.inOp, [' ', 'i', 'n', ' '])
    else if containsSeq [' ', 'n', 'o', 't', ' ', 'i', 'n', ' '] cond then
      some (.notIn, [' ', 'n', 'o', 't', ' ', 'i', 'n', ' '])
    else none
  match opSel with
  | none => false
  | some (op, op_str) =>
    match findSeqIdx op_str cond with
    | none => false
    | some idx =>
      let variable_ := trimMatchesChar '"' (trimMatchesChar '\'' (trimChars (cond.take idx)))
      let value := trimMatchesChar '"' (trimMatchesChar '\'' (trimChars (cond.drop (idx + op_str.length))))
      let var_value := getVariableValue env (String.mk variable_)
      match op with
      | .eq => var_value = String.mk value
      | .notEq => var_value ≠ String.mk value
      | .lt => markerCompareVersions var_value (String.mk value) < 0
      | .ltEq => markerCompareVersions var_value (String.mk value) ≤ 0
      | .gt => markerCompareVersions var_value (String.mk value) > 0
      | .gtEq => markerCompareVersions var_value (String.mk value) ≥ 0
      | .inOp => containsSeq var_value.data value
      | .notIn => !containsSeq var_value.data value

theorem findSeqIdx_le {pat l : List Char} {idx : Nat}
    (h : findSeqIdx pat l = some idx) : idx + pat.length ≤ l.length := by
  induction l generalizing idx with
  | nil =>
    simp only [findSeqIdx] at h
    split at h
    · rename_i hp
      simp_all
    · simp at h
  | cons c rest ih =>
    simp only [findSeqIdx] at h
    split at h
    · rename_i hp
      have hpre : pat <+: c :: rest := by
        exact (List.isPrefixOf_iff_prefix).1 hp
      have := hpre.length_le
      simp at h
      omega
    · match hr : findSeqIdx pat rest with
      | none => rw [hr] at h; simp at h
      | some j =>
        rw [hr] at h
        simp at h
        have := ih hr
        simp [List.length_cons]
        omega

/-- `Marker::evaluate_expression`: split at the first textual `" or "`, else
the first `" and "`, else evaluate as a single condition.  The `fuel`
argument keeps the recursion structural; splitting at a found connective
strictly shortens both halves (the connective's four or five characters are
consumed), so any fuel above the expression length — which
`Marker.evaluate` supplies — is never exhausted. -/
def evaluateExpression (env : Environment) : Nat → List Char → Bool
  | 0, _ => false
  | fuel + 1, expr =>
    match findSeqIdx [' ', 'o', 'r', ' '] expr with
    | some idx =>
      evaluateExpression env fuel (expr.take idx) ||
        evaluateExpression env fuel (expr.drop (idx + 4))
    | none =>
      match findSeqIdx [' ', 'a', 'n', 'd', ' '] expr with
      | some idx =>
        evaluateExpression env fuel (expr.take idx) &&
          evaluateExpression env fuel (expr.drop (idx + 5))
      | none => evaluateCondition env (trimChars expr)

/-- `Marker::evaluate`. -/
def Marker.evaluate (m : Marker) (env : Environment) : Bool :=
  evaluateExpression env (m.expression.data.length + 1) m.expression.data

/-! ## Candidate selector (crates/pip-rs-core/src/resolver/candidate_selector.rs) -/

/-- Candidate information (`Candidate`). -/
structure Candidate where
  package : Package
  is_installed : Bool
  is_editable : Bool
  link_url : Option String
deriving DecidableEq, Repr

/-- Candidate selection strategy (`SelectionStrategy`). -/
inductive SelectionStrategy where
  | preferInstalled
  | preferLatest
  | preferCompatible
deriving DecidableEq, Repr

/-- Lexicographic comparison of two character lists by code point.  UTF-8
byte order coincides with code-point order, so this models Rust
`str::cmp` (the `Ord` instance on `String`, which compares bytes). -/
def charListCmp : List Char → List Char → Ordering
  | [], [] => .eq
  | [], _ :: _ => .lt
  | _ :: _, [] => .gt
  | a :: as_, b :: bs =>
    match compare a.toNat b.toNat with
    | .eq => charListCmp as_ bs
    | o => o

/-- Rust `String` ordering. -/
def rustStrCmp (a b : String) : Ordering := charListCmp a.data b.data

/-- Rust `Iterator::max_by`: fold keeping the later element on ties, so the
last maximal element wins. -/
def rustMaxBy {α : Type} (cmp : α → α → Ordering) (l : List α) : Option α :=
  l.foldl
    (fun acc x =>
      match acc with
      | none => some x
      | some a => if cmp x a = .lt then some a else some x)
    none

/-- `CandidateSelector::select_best` (candidate_selector.rs lines 84-124):
the `PreferLatest` arm takes the maximum by plain string comparison of the
version fields. -/
def selectBest (strategy : SelectionStrategy) (candidates : List Candidate) :
    Option Candidate :=
  if candidates.isEmpty then none
  else
    match strategy with
    | .preferInstalled =>
      (candidates.find? (·.is_installed)).orElse (fun _ => candidates.head?)
    | .preferLatest =>
      rustMaxBy (fun a b => rustStrCmp a.package.version b.package.version) candidates
    | .preferCompatible =>
      (candidates.find? (·.is_installed)).orElse (fun _ =>
        rustMaxBy (fun a b => rustStrCmp a.package.version b.package.version) candidates)

/-! ## Dependency cache (crates/pip-rs-core/src/resolver/dependency_cache.rs)
The `hits`/`misses` counters are Rust `u32` values; they count one get call
each, and are modelled as `Nat`.  The `f64` hit rate is modelled as the
exact rational the source's formula computes. -/

/-- Cached dependency information (`CachedDependencies`). -/
structure CachedDependencies where
  package_name : String
  version : String
  dependencies : List Requirement
  extras : List String
deriving DecidableEq, Repr

/-- The dependency cache (`DependencyCache`). -/
structure DependencyCache where
  cache : List (String × CachedDependencies)
  hits : Nat
  misses : Nat
deriving DecidableEq, Repr

/-- `DependencyCache::new`. -/
def DependencyCache.new : DependencyCache := ⟨[], 0, 0⟩

/-- `DependencyCache::cache_key`: lowercase name, `==`, version. -/
def cacheKey (package_name version : String) : String :=
  lowerAscii package_name ++ "==" ++ version

/-- `DependencyCache::get`: returns the entry and bumps the hit counter on
presence, else bumps the miss counter. -/
def DependencyCache.get (c : DependencyCache) (package_name version : String) :
    Option CachedDependencies × DependencyCache :=
  match lookupAssoc c.cache (cacheKey package_name version) with
  | some deps => (some deps, { c with hits := c.hits + 1 })
  | none => (none, { c with misses := c.misses + 1 })

/-- `DependencyCache::set`. -/
def DependencyCache.set (c : DependencyCache) (package_name version : String)
    (dependencies : List Requirement) (extras : List String) : DependencyCache :=
  { c with
    cache := insertAssoc c.cache (cacheKey package_name version)
      ⟨package_name, version, dependencies, extras⟩ }

/-- Cache statistics (`CacheStats`). -/
structure CacheStats where
  hits : Nat
  misses : Nat
  total : Nat
  hit_rate : ℚ
  size : Nat
deriving DecidableEq, Repr

/-- `DependencyCache::stats`. -/
def DependencyCache.stats (c : DependencyCache) : CacheStats :=
  let total := c.hits + c.misses
  { hits := c.hits
    misses := c.misses
    total := total
    hit_rate := if total > 0 then ((c.hits : ℚ) / (total : ℚ)) * 100 else 0
    size := c.cache.length }

/-! ## Lock file (crates/pip-rs-core/src/resolver/lockfile.rs) -/

/-- A locked package entry (`LockedPackage`). -/
structure LockedPackage where
  name : String
  version : String
  summary : Option String
  dependencies : List String
  hash : Option String
  url : Option String
deriving DecidableEq, Repr

/-- Lock file (`LockFile`); the package map is an association list keyed by
`"{name}-{version}"`. -/
structure LockFile where
  version : String
  generated_at : String
  python_version : String
  packages : List (String × LockedPackage)
deriving DecidableEq, Repr

/-- `LockFile::from_packages`: build the map (duplicate keys overwrite), with
version `"1.0"`.  The `generated_at` timestamp the source takes from the
clock is passed in as `now`. -/
def LockFile.from_packages (packages : List Package) (python_version now : String) :
    LockFile :=
  { version := "1.0"
    generated_at := now
    python_version := python_version
    packages :=
      packages.foldl
        (fun m pkg =>
          insertAssoc m (pkg.name ++ "-" ++ pkg.version)
            ⟨pkg.name, pkg.version, pkg.summary, pkg.requires_dist, none, none⟩)
        [] }

/-- `LockFile::validate`: fails on a version other than `"1.0"` or an empty
package map. -/
def LockFile.validate (lf : LockFile) : Except String Unit :=
  if lf.version ≠ "1.0" then .error ("Unsupported lock file version: " ++ lf.version)
  else if lf.packages.isEmpty then .error "Lock file contains no packages"
  else .ok ()

/-- Modelled from the spec: `save` then `load` through serde_json, which is
not part of the repository's sources.  Spec section 4.6 states the pair is
"a direct structured round trip", so it is modelled as the identity on the
lock-file structure. -/
def LockFile.saveLoad (lf : LockFile) : LockFile := lf

/-! ## Resolver (crates/pip-rs-core/src/resolver/resolver.rs)

The metadata source (`crate::network::get_package_metadata`, an external
collaborator per spec section 6) is modelled as a finite table from package
name to the `Package` the source would return for the `"latest"` selector;
a name outside the table is a fetch failure.  `resolve_concurrent` drains
the queue in batches of at most 10, marks a name visited before its fetch
starts, fetches every batch member (`future::join_all` preserves the batch
order, so results are applied in batch order), and expands dependencies of
the packages that pass the version and constraint checks.  The loop itself
carries no fuel in the source; the `fuel` argument below is a modelling
device, and the termination theorem shows the chosen fuel is never
exhausted.  `fetchLog` records, in order, every name whose metadata fetch
is started. -/

/-- The full resolver-owned state
(`Resolver`: cache, visited, environment, constraints, version_cache). -/
structure ResolverState where
  cache : List (String × Package)
  visited : List String
  environment : Environment
  constraints : List (String × List Requirement)
  version_cache : List (String × List Nat)
deriving DecidableEq, Repr

/-- `Resolver::clear_cache` (resolver.rs lines 320-324): clears the package
cache and the visited set — and nothing else. -/
def clearCache (st : ResolverState) : ResolverState :=
  { st with cache := [], visited := [] }

/-- The state the resolve loop threads: package cache, visited set, and the
log of started fetches. -/
structure RunState where
  cache : List (String × Package)
  visited : List String
  fetchLog : List String
deriving DecidableEq, Repr

/-- The batch-collection inner loop of `resolve_concurrent` (lines 62-71):
pop until the batch holds `maxC` entries or the queue is empty; a name
already visited is dropped without a fetch, a fresh name is marked visited
immediately and added to the batch.  Returns (batch, visited, queue). -/
def collectBatch (maxC : Nat) : List Requirement → List String → List Requirement →
    List Requirement × List String × List Requirement
  | [], visited, batch => (batch, visited, [])
  | req :: rest, visited, batch =>
    if batch.length < maxC then
      if req.name ∈ visited then collectBatch maxC rest visited batch
      else collectBatch maxC rest (visited ++ [req.name]) (batch ++ [req])
    else (batch, visited, req :: rest)

/-- One iteration of the dependency-expansion loop (lines 131-146): parse
the `requires_dist` string, drop it if it fails to parse, drop it if its
parsed marker evaluates false against the environment, and append it to the
enqueued list only if its name is not yet visited. -/
def expandStep (env : Environment) (visited : List String)
    (acc : List Requirement) (dep_str : String) : List Requirement :=
  match parseRequirement dep_str with
  | .error _ => acc
  | .ok dep_req =>
    let skipByMarker :=
      match dep_req.marker with
      | some marker_str =>
        match Marker.parse marker_str with
        | .ok mk => !(mk.evaluate env)
        | .error _ => false
      | none => false
    if skipByMarker then acc
    else if dep_req.name ∈ visited then acc
    else acc ++ [dep_req]

/-- The dependency-expansion loop over `requires_dist`, applying
`expandStep` to each entry in order. -/
def expandDeps (env : Environment) (visited : List String)
    (requires_dist : List String) : List Requirement :=
  requires_dist.foldl (expandStep env visited) []

/-- Processing of one completed fetch (lines 97-158): a fetch failure only
logs; a version failing the requirement's own specs or the constraint set
is dropped; otherwise the package is cached, its surviving dependencies are
enqueued, and it is appended to the result. -/
def processOne (src : List (String × Package)) (env : Environment)
    (constraints : List (String × List Requirement))
    (acc : RunState × List Requirement × List Package) (req : Requirement) :
    RunState × List Requirement × List Package :=
  let st := acc.1
  let queue := acc.2.1
  let resolved := acc.2.2
  match lookupAssoc src req.name with
  | none => (st, queue, resolved)
  | some package =>
    if !(satisfiesVersion package.version req.specs) then (st, queue, resolved)
    else
      let constraintsOk :=
        match lookupAssoc constraints req.name with
        | some creqs => creqs.all (fun cr => satisfiesVersion package.version cr.specs)
        | none => true
      if !constraintsOk then (st, queue, resolved)
      else
        ({ st with cache := insertAssoc st.cache package.name package },
         queue ++ expandDeps env st.visited package.requires_dist,
         resolved ++ [package])

/-- Apply the fetch results of one batch in batch order. -/
def processBatch (src : List (String × Package)) (env : Environment)
    (constraints : List (String × List Requirement)) (st : RunState)
    (queue : List Requirement) (resolved : List Package)
    (batch : List Requirement) : RunState × List Requirement × List Package :=
  batch.foldl (processOne src env constraints) (st, queue, resolved)

/-- The outer loop of `resolve_concurrent` (lines 60-159).  `fuel` is the
modelling device discussed above: the first component is `none` exactly
when fuel runs out, and the termination theorem shows it never does for the
fuel `resolve` supplies. -/
def resolveLoop (src : List (String × Package)) (env : Environment)
    (constraints : List (String × List Requirement)) :
    Nat → RunState → List Requirement → List Package →
    Option (List Package) × List String
  | 0, st, _, _ => (none, st.fetchLog)
  | fuel + 1, st, queue, resolved =>
    if queue = [] then (some resolved, st.fetchLog)
    else
      let collected := collectBatch 10 queue st.visited []
      let batch := collected.1
      let visited2 := collected.2.1
      let queue2 := collected.2.2
      if batch = [] then (some resolved, st.fetchLog)
      else
        let st2 : RunState :=
          { st with visited := visited2, fetchLog := st.fetchLog ++ batch.map (·.name) }
        let stepped := processBatch src env constraints st2 queue2 resolved batch
        resolveLoop src env constraints fuel stepped.1 stepped.2.1 stepped.2.2

/-- Every name a requires_dist entry of any package in the metadata table
parses to: the only names dependency expansion can ever enqueue. -/
def depNames (src : List (String × Package)) : List String :=
  src.foldr
    (fun e acc =>
      (e.2.requires_dist.filterMap
        (fun s =>
          match parseRequirement s with
          | .ok r => some r.name
          | .error _ => none)) ++ acc)
    []

/-- All names the resolve loop can ever see: the input names and the
dependency names of the metadata table. -/
def nameUniverse (src : List (String × Package)) (reqs : List Requirement) :
    List String :=
  reqs.map (·.name) ++ depNames src

/-- Fuel sufficient for the loop: one more than the number of distinct
reachable names. -/
def resolveFuel (src : List (String × Package)) (reqs : List Requirement) : Nat :=
  (nameUniverse src reqs).dedup.length + 1

/-- `Resolver::resolve` on a fresh resolver with the given environment and
constraint set: run the concurrent loop from an empty visited set and
cache.  Returns the resolved packages (`none` only on fuel exhaustion,
shown impossible) and the ordered log of started fetches. -/
def resolve (src : List (String × Package)) (env : Environment)
    (constraints : List (String × List Requirement)) (reqs : List Requirement) :
    Option (List Package) × List String :=
  resolveLoop src env constraints (resolveFuel src reqs) ⟨[], [], []⟩ reqs []

/-! ## Concrete fixtures used by the claims -/

/-- `Environment::current()` as built on a Linux x86_64 host
(src/src/models/marker.rs lines 48-90). -/
def linuxEnv : Environment :=
  { python_version := "3.11"
    python_full_version := "3.11.0"
    os_name := "posix"
    sys_platform := "linux"
    platform_release := "unknown"
    platform_system := "Darwin"
    platform_version := "unknown"
    platform_machine := "x86_64"
    platform_python_implementation := "CPython"
    implementation_name := "cpython"
    implementation_version := "3.11" }

/-- `Environment::current()` as built on a Windows x86_64 host. -/
def winEnv : Environment :=
  { linuxEnv with os_name := "nt", sys_platform := "win32" }

/-- A minimal package fixture: name `a`, version `1.0`, no dependencies. -/
def pkgA : Package := ⟨"a", "1.0", none, none, none, none, none, [], []⟩

/-- The bare requirement `a`. -/
def reqA : Requirement := ⟨"a", [], [], none⟩

/-- The requirement `a>=1.0`. -/
def reqAge : Requirement := ⟨"a", [⟨.gtEq, "1.0"⟩], [], none⟩

/-- A resolver state in which all four resolver-owned collections are
nonempty. -/
def stFull : ResolverState :=
  ⟨[("a", pkgA)], ["a"], linuxEnv, [("a", [reqAge])], [("1.0", [1, 0])]⟩

/-- The bare requirement `b` (no package of that name in the one-entry
metadata table, so its fetch fails). -/
def reqB : Requirement := ⟨"b", [], [], none⟩

/-- A package fixture: name `c`, version `1.0`. -/
def pkgC : Package := ⟨"c", "1.0", none, none, none, none, none, [], []⟩

/-- The requirement `c>=2.0`, which version `1.0` fails. -/
def reqCge2 : Requirement := ⟨"c", [⟨.gtEq, "2.0"⟩], [], none⟩

/-- The constraint requirement `c==2.0`. -/
def reqCeq2 : Requirement := ⟨"c", [⟨.eq, "2.0"⟩], [], none⟩

/-- The bare requirement `c`. -/
def reqCbare : Requirement := ⟨"c", [], [], none⟩

/-- Concatenation with a separator (the inverse image of Rust
`str::split` used to state the round-trip claim). -/
def intercalateChar (sep : Char) : List (List Char) → List Char
  | [] => []
  | [x] => x
  | x :: y :: rest => x ++ sep :: intercalateChar sep (y :: rest)

/-! ## Requirement-string composition (the shape the round-trip claim
quantifies over) -/

/-- The textual form of each operator, as `parse_version_specs` reads it. -/
def opChars : VersionOp → List Char
  | .eq => ['=', '=']
  | .notEq => ['!', '=']
  | .lt => ['<']
  | .ltEq => ['<', '=']
  | .gt => ['>']
  | .gtEq => ['>', '=']
  | .compatible => ['~', '=']

/-- One version clause as text: operator then version. -/
def specClause (sp : VersionSpec) : List Char := opChars sp.op ++ sp.version.data

/-- A requirement string composed as `name[extras]specs;marker`. -/
def composeReq (name : List Char) (extras : List (List Char))
    (specs : List VersionSpec) (marker : List Char) : String :=
  String.mk (name ++ '[' :: (intercalateChar ',' extras ++ ']' ::
    (intercalateChar ',' (specs.map specClause) ++ ';' :: marker)))

/-- Well-formedness of a clause list for the round-trip statement: every
version is non-empty and made of version characters. -/
def SpecsWf (specs : List VersionSpec) : Prop :=
  ∀ sp ∈ specs, sp.version.data ≠ [] ∧ ∀ c ∈ sp.version.data, isVersionChar c = true

/-! ## Claim C3: the Compatible operator's test vectors -/

/-- C3 counterexample: the claim's first vector `check("2.1.0", ~=2.0.0) == true`
is false on the code — `check_version_spec` requires equal major **and**
minor for `~=`, and `2.1.0` has minor 1 against the target's 0. -/
theorem compatible_vector_one_fails :
    checkVersionSpec "2.1.0" ⟨VersionOp.compatible, "2.0.0"⟩ ≠ true := by
  decide

/-- C3 (amended): `check("2.1.0", ~=2.0.0) == false` (the code's `~=`
requires equal major.minor, as the spec's own section 3 invariant states),
`check("3.0.0", ~=2.0.0) == false`, and `check("1.9.0", ~=2.0.0) == false`. -/
theorem compatible_vectors :
    checkVersionSpec "2.1.0" ⟨VersionOp.compatible, "2.0.0"⟩ = false ∧
    checkVersionSpec "3.0.0" ⟨VersionOp.compatible, "2.0.0"⟩ = false ∧
    checkVersionSpec "1.9.0" ⟨VersionOp.compatible, "2.0.0"⟩ = false := by
  decide

/-! ## Claim C5: what clear_cache clears -/

/-- C5 counterexample: `clear_cache` on a resolver whose four collections
are all nonempty does not empty all four — the version-parse cache and the
constraint set survive. -/
theorem clearCache_leaves_state :
    ¬ ((clearCache stFull).cache = [] ∧ (clearCache stFull).visited = [] ∧
       (clearCache stFull).version_cache = [] ∧ (clearCache stFull).constraints = []) := by
  decide

/-- C5 (amended): `clear_cache` empties exactly the package-by-name cache
and the visited set, and leaves the version-parse cache and the constraint
set untouched. -/
theorem clearCache_clears_cache_and_visited (st : ResolverState) :
    (clearCache st).cache = [] ∧ (clearCache st).visited = [] ∧
    (clearCache st).version_cache = st.version_cache ∧
    (clearCache st).constraints = st.constraints :=
  ⟨rfl, rfl, rfl, rfl⟩

/-! ## Claim C9: dependency-cache statistics -/

/-- C9: on a fresh cache the sequence get (miss), set, get (hit) yields
`hits = 1, misses = 1, total = 2, hit_rate = 50, size = 1`; and in general
`total = hits + misses`, the hit rate follows the source's formula (0 when
the total is 0), and `size` is the number of distinct keys stored. -/
theorem dependencyCache_stats :
    ((((DependencyCache.new.get "requests" "2.28.0").2.set "requests" "2.28.0" [] []).get
        "requests" "2.28.0").2.stats = ⟨1, 1, 2, 50, 1⟩) ∧
    (∀ c : DependencyCache,
      c.stats.total = c.stats.hits + c.stats.misses ∧
      c.stats.hit_rate =
        (if c.stats.total = 0 then 0 else (c.stats.hits : ℚ) / (c.stats.total : ℚ) * 100) ∧
      ((c.cache.map Prod.fst).Nodup →
        c.stats.size = ((c.cache.map Prod.fst).dedup).length)) := by
  constructor
  · have hc : (((DependencyCache.new.get "requests" "2.28.0").2.set "requests" "2.28.0" [] []).get
        "requests" "2.28.0").2 =
        ⟨[("requests==2.28.0", ⟨"requests", "2.28.0", [], []⟩)], 1, 1⟩ := by decide
    rw [hc]
    simp only [DependencyCache.stats, CacheStats.mk.injEq]
    norm_num
  · intro c
    refine ⟨rfl, ?_, ?_⟩
    · simp only [DependencyCache.stats]
      rcases Nat.eq_zero_or_pos (c.hits + c.misses) with h | h
      · simp [h]
      · simp [h, Nat.pos_iff_ne_zero.mp h]
    · intro hnd
      simp only [DependencyCache.stats, List.dedup_eq_self.mpr hnd, List.length_map]

/-- C9 witness: the general statement applied to a concrete one-entry
cache, with the distinct-keys hypothesis discharged by computation. -/
theorem dependencyCache_stats_witness :
    (DependencyCache.new.set "p" "1" [] []).stats.size =
      (((DependencyCache.new.set "p" "1" [] []).cache.map Prod.fst).dedup).length :=
  (dependencyCache_stats.2 _).2.2 (by decide)

/-! ## Claim C10: unparseable requires_dist entries are skipped silently -/

/-- C10: during dependency expansion a `requires_dist` string that fails to
parse contributes nothing — no error, no enqueue, and the remaining entries
are still processed: dropping it from the front of the list leaves the
expansion unchanged.  Concretely, `"pkg=="` fails to parse (the hard
`InvalidRequirement`-style error exists only at parse time, before
`resolve` runs), yet expansion of `["pkg==", "good>=1.0"]` still enqueues
`good>=1.0`. -/
theorem expandDeps_skips_unparseable :
    (∀ (env : Environment) (visited : List String) (bad : String)
        (rest : List String) (e : String),
      parseRequirement bad = .error e →
      expandDeps env visited (bad :: rest) = expandDeps env visited rest) ∧
    parseRequirement "pkg==" = .error "Empty version in spec" ∧
    expandDeps linuxEnv [] ["pkg==", "good>=1.0"] =
      [⟨"good", [⟨.gtEq, "1.0"⟩], [], none⟩] := by
  refine ⟨?_, by decide, by decide⟩
  intro env visited bad rest e h
  simp only [expandDeps, List.foldl_cons, expandStep, h]

/-- C10 witness: the skipping equation applied at the concrete unparseable
entry. -/
theorem expandDeps_skips_unparseable_witness :
    expandDeps linuxEnv [] ["pkg==", "good>=1.0"] =
      expandDeps linuxEnv [] ["good>=1.0"] :=
  expandDeps_skips_unparseable.1 linuxEnv [] "pkg==" ["good>=1.0"]
    "Empty version in spec" (by decide)

/-! ## Claim C8: lock-file construction, round trip and validation -/

theorem insertAssoc_ne_nil {α : Type} (l : List (String × α)) (k : String) (v : α) :
    insertAssoc l k v ≠ [] := by
  unfold insertAssoc
  split
  · rename_i h
    cases l with
    | nil => simp at h
    | cons a t => simp
  · simp

theorem foldl_insert_ne_nil (ps : List Package)
    (m : List (String × LockedPackage)) (h : m ≠ [] ∨ ps ≠ []) :
    ps.foldl
      (fun m pkg =>
        insertAssoc m (pkg.name ++ "-" ++ pkg.version)
          ⟨pkg.name, pkg.version, pkg.summary, pkg.requires_dist, none, none⟩)
      m ≠ [] := by
  induction ps generalizing m with
  | nil =>
    rcases h with h | h
    · simpa using h
    · exact absurd rfl h
  | cons p t ih =>
    simp only [List.foldl_cons]
    exact ih _ (Or.inl (insertAssoc_ne_nil _ _ _))

/-- C8: `from_packages(list, "3.11", now)` on a non-empty list yields
version `"1.0"` and a non-empty package map, so the save/load round trip
(modelled from the spec as the identity on the structure, serde_json being
external) validates; and `validate()` succeeds exactly when the version is
`"1.0"` and the package map is non-empty. -/
theorem lockfile_roundtrip_validate :
    (∀ (ps : List Package) (pv now : String), ps ≠ [] →
      (LockFile.from_packages ps pv now).version = "1.0" ∧
      (LockFile.from_packages ps pv now).packages ≠ [] ∧
      ((LockFile.from_packages ps pv now).saveLoad).validate = .ok ()) ∧
    (∀ lf : LockFile, lf.validate = .ok () ↔ (lf.version = "1.0" ∧ lf.packages ≠ [])) := by
  constructor
  · intro ps pv now hps
    have hne : (LockFile.from_packages ps pv now).packages ≠ [] :=
      foldl_insert_ne_nil ps [] (Or.inr hps)
    refine ⟨rfl, hne, ?_⟩
    simp only [LockFile.saveLoad, LockFile.validate]
    rw [if_neg (by simp [LockFile.from_packages])]
    rw [if_neg (by simpa [List.isEmpty_iff] using hne)]
  · intro lf
    simp only [LockFile.validate]
    split
    · rename_i h
      simp only [reduceCtorEq, false_iff, not_and]
      intro hv
      exact absurd hv h
    · rename_i h
      split
      · rename_i hemp
        simp only [reduceCtorEq, false_iff, not_and]
        intro _
        simp only [List.isEmpty_iff] at hemp
        simp [hemp]
      · rename_i hemp
        simp only [List.isEmpty_iff] at hemp
        simp only [true_iff]
        constructor
        · by_contra hv
          exact h hv
        · simpa using hemp

/-- C8 witness: the construction half applied to a concrete singleton
list. -/
theorem lockfile_roundtrip_validate_witness :
    (LockFile.from_packages [pkgA] "3.11" "t").version = "1.0" ∧
    (LockFile.from_packages [pkgA] "3.11" "t").packages ≠ [] ∧
    ((LockFile.from_packages [pkgA] "3.11" "t").saveLoad).validate = .ok () :=
  lockfile_roundtrip_validate.1 [pkgA] "3.11" "t" (by decide)

/-! ## Claim C6: marker gating during dependency expansion -/

theorem mem_expandFold_marker (env : Environment) (visited : List String) :
    ∀ (deps : List String) (acc : List Requirement),
      (∀ r ∈ acc, ∀ (m : String) (mk : Marker), r.marker = some m →
        Marker.parse m = .ok mk → mk.evaluate env = true) →
      ∀ r ∈ deps.foldl (expandStep env visited) acc,
        ∀ (m : String) (mk : Marker), r.marker = some m →
          Marker.parse m = .ok mk → mk.evaluate env = true := by
  intro deps
  induction deps with
  | nil => intro acc hacc; simpa using hacc
  | cons d t ih =>
    intro acc hacc r hr
    rw [List.foldl_cons] at hr
    refine ih _ ?_ r hr
    intro r2 hr2 m mk hm hp
    simp only [expandStep] at hr2
    split at hr2
    · exact hacc r2 hr2 m mk hm hp
    · split at hr2
      · exact hacc r2 hr2 m mk hm hp
      · rename_i hskip
        split at hr2
        · exact hacc r2 hr2 m mk hm hp
        · rw [List.mem_append] at hr2
          rcases hr2 with hr2 | hr2
          · exact hacc r2 hr2 m mk hm hp
          · rw [List.mem_singleton] at hr2
            subst hr2
            rw [hm] at hskip
            simp only [hp, Bool.not_eq_true] at hskip
            simpa using hskip

/-- C6: a `requires_dist` entry whose parsed marker evaluates false against
the resolver's environment is not pushed onto the work queue (everything
the expansion enqueues has markers that parse only to true evaluations),
processing a fetch result never inserts into the visited set, and
concretely `"pkgX; sys_platform == 'win32'"` under the Linux environment is
not enqueued. -/
theorem marker_gating :
    (∀ (env : Environment) (visited : List String) (deps : List String)
        (r : Requirement), r ∈ expandDeps env visited deps →
      ∀ (m : String) (mk : Marker), r.marker = some m → Marker.parse m = .ok mk →
        mk.evaluate env = true) ∧
    (∀ (src : List (String × Package)) (env : Environment)
        (constraints : List (String × List Requirement))
        (acc : RunState × List Requirement × List Package) (req : Requirement),
      ((processOne src env constraints acc req).1).visited = acc.1.visited) ∧
    expandDeps linuxEnv [] ["pkgX; sys_platform == 'win32'"] = [] := by
  refine ⟨?_, ?_, by decide⟩
  · intro env visited deps r hr
    exact mem_expandFold_marker env visited deps [] (by simp) r hr
  · intro src env constraints acc req
    simp only [processOne]
    rcases h : lookupAssoc src req.name with _ | pkg
    · rfl
    · simp only []
      split
      · rfl
      · split
        · rfl
        · rfl

/-- C6 witness: the general gating statement applied under the Windows
environment, where the same dependency is enqueued and its marker
therefore evaluates true. -/
theorem marker_gating_witness :
    (Marker.mk "sys_platform == 'win32'").evaluate winEnv = true :=
  marker_gating.1 winEnv [] ["pkgX; sys_platform == 'win32'"]
    ⟨"pkgx", [], [], some "sys_platform == 'win32'"⟩ (by decide)
    "sys_platform == 'win32'" (Marker.mk "sys_platform == 'win32'") rfl (by decide)

/-! ## Claim C4: what PreferLatest maximizes -/

theorem charListCmp_self (l : List Char) : charListCmp l l = .eq := by
  induction l with
  | nil => rfl
  | cons c t ih =>
    simp only [charListCmp, Nat.compare_eq_eq.mpr rfl]
    exact ih

theorem charListCmp_gt_iff_lt (a : List Char) :
    ∀ b, (charListCmp a b = .gt ↔ charListCmp b a = .lt) := by
  induction a with
  | nil => intro b; cases b <;> simp [charListCmp]
  | cons x xs ih =>
    intro b
    cases b with
    | nil => simp [charListCmp]
    | cons y ys =>
      simp only [charListCmp]
      rcases Nat.lt_trichotomy x.toNat y.toNat with h | h | h
      · rw [Nat.compare_eq_lt.mpr h, Nat.compare_eq_gt.mpr h]
        simp
      · rw [Nat.compare_eq_eq.mpr h, Nat.compare_eq_eq.mpr h.symm]
        exact ih ys
      · rw [Nat.compare_eq_gt.mpr h, Nat.compare_eq_lt.mpr h]
        simp

theorem charListCmp_le_trans (a : List Char) :
    ∀ b c, charListCmp a b ≠ .gt → charListCmp b c ≠ .gt → charListCmp a c ≠ .gt := by
  induction a with
  | nil =>
    intro b c _ _
    cases c <;> simp [charListCmp]
  | cons x xs ih =>
    intro b c h1 h2
    cases b with
    | nil => simp [charListCmp] at h1
    | cons y ys =>
      cases c with
      | nil => simp [charListCmp] at h2
      | cons z zs =>
        simp only [charListCmp] at h1 h2 ⊢
        rcases hxy : compare x.toNat y.toNat with _ | _ | _ <;> rw [hxy] at h1 <;>
          rcases hyz : compare y.toNat z.toNat with _ | _ | _ <;> rw [hyz] at h2
        · rw [Nat.compare_eq_lt.mpr
            (Nat.lt_trans (Nat.compare_eq_lt.mp hxy) (Nat.compare_eq_lt.mp hyz))]
          simp
        · rw [Nat.compare_eq_lt.mpr (Nat.compare_eq_eq.mp hyz ▸ Nat.compare_eq_lt.mp hxy)]
          simp
        · exact absurd rfl h2
        · rw [Nat.compare_eq_lt.mpr (Nat.compare_eq_eq.mp hxy ▸ Nat.compare_eq_lt.mp hyz)]
          simp
        · rw [Nat.compare_eq_eq.mpr (Nat.compare_eq_eq.mp hxy ▸ Nat.compare_eq_eq.mp hyz)]
          exact ih ys zs h1 h2
        · exact absurd rfl h2
        · exact absurd rfl h1
        · exact absurd rfl h1
        · exact absurd rfl h1

theorem rustMaxBy_fold_spec {α : Type} (cmp : α → α → Ordering)
    (hrefl : ∀ p, cmp p p ≠ .gt)
    (hswap : ∀ p q, cmp p q = .gt ↔ cmp q p = .lt)
    (htrans : ∀ p q r, cmp p q ≠ .gt → cmp q r ≠ .gt → cmp p r ≠ .gt) :
    ∀ (l : List α) (c : α),
      ∃ d, l.foldl
          (fun acc x =>
            match acc with
            | none => some x
            | some a => if cmp x a = .lt then some a else some x)
          (some c) = some d ∧
        (d = c ∨ d ∈ l) ∧ cmp c d ≠ .gt ∧ ∀ y ∈ l, cmp y d ≠ .gt := by
  intro l
  induction l with
  | nil => intro c; exact ⟨c, rfl, Or.inl rfl, hrefl c, by simp⟩
  | cons x xs ih =>
    intro c
    simp only [List.foldl_cons]
    by_cases hx : cmp x c = .lt
    · rw [if_pos hx]
      obtain ⟨d, hfold, hdmem, hcd, hall⟩ := ih c
      refine ⟨d, hfold, ?_, hcd, ?_⟩
      · rcases hdmem with h | h
        · exact Or.inl h
        · exact Or.inr (List.mem_cons_of_mem _ h)
      · intro y hy
        rcases List.mem_cons.mp hy with h | h
        · subst h
          have hxc : cmp y c ≠ .gt := by
            rw [hx]
            simp
          exact htrans y c d hxc hcd
        · exact hall y h
    · rw [if_neg hx]
      obtain ⟨d, hfold, hdmem, hxd, hall⟩ := ih x
      have hcx : cmp c x ≠ .gt := fun hgt => hx ((hswap c x).mp hgt)
      refine ⟨d, hfold, ?_, htrans c x d hcx hxd, ?_⟩
      · rcases hdmem with h | h
        · exact Or.inr (h ▸ List.mem_cons_self x xs)
        · exact Or.inr (List.mem_cons_of_mem _ h)
      · intro y hy
        rcases List.mem_cons.mp hy with h | h
        · subst h
          exact hxd
        · exact hall y h

/-- C4 counterexample: for the candidate list with versions `"10.0"` and
`"9.0"`, select_best under PreferLatest does not return a candidate whose
version is maximal under the ordinal dotted-numeric comparison — string
comparison puts `"9.0"` above `"10.0"`, while ordinally `9.0 < 10.0`. -/
theorem selectBest_not_ordinal_max :
    ¬ (∀ c, selectBest .preferLatest
        [⟨⟨"pkg", "10.0", none, none, none, none, none, [], []⟩, false, false, none⟩,
         ⟨⟨"pkg", "9.0", none, none, none, none, none, [], []⟩, false, false, none⟩] = some c →
      ∀ x ∈ [⟨⟨"pkg", "10.0", none, none, none, none, none, [], []⟩, false, false, none⟩,
             (⟨⟨"pkg", "9.0", none, none, none, none, none, [], []⟩, false, false, none⟩ : Candidate)],
        cmpParts (parseVersionParts x.package.version) (parseVersionParts c.package.version) ≠ .gt) := by
  intro h
  exact h ⟨⟨"pkg", "9.0", none, none, none, none, none, [], []⟩, false, false, none⟩
    (by decide)
    ⟨⟨"pkg", "10.0", none, none, none, none, none, [], []⟩, false, false, none⟩
    (by decide) (by decide)

/-- C4 (amended): for every non-empty candidate list, select_best under the
PreferLatest strategy returns a member of the list whose version is maximal
under plain lexicographic string comparison (Rust `String` ordering; the
last maximal element on ties), not under the ordinal comparison of
section 4.1. -/
theorem selectBest_preferLatest_string_max (cands : List Candidate)
    (h : cands ≠ []) :
    ∃ c, selectBest .preferLatest cands = some c ∧ c ∈ cands ∧
      ∀ x ∈ cands, rustStrCmp x.package.version c.package.version ≠ .gt := by
  match cands, h with
  | z :: rest, _ =>
    have hrefl : ∀ p : Candidate, rustStrCmp p.package.version p.package.version ≠ .gt := by
      intro p
      rw [rustStrCmp, charListCmp_self]
      simp
    have hswap : ∀ p q : Candidate,
        (rustStrCmp p.package.version q.package.version = .gt ↔
         rustStrCmp q.package.version p.package.version = .lt) := by
      intro p q
      exact charListCmp_gt_iff_lt _ _
    have htrans : ∀ p q r : Candidate,
        rustStrCmp p.package.version q.package.version ≠ .gt →
        rustStrCmp q.package.version r.package.version ≠ .gt →
        rustStrCmp p.package.version r.package.version ≠ .gt := by
      intro p q r
      exact charListCmp_le_trans _ _ _
    obtain ⟨d, hfold, hdmem, hzd, hall⟩ :=
      rustMaxBy_fold_spec (fun a b => rustStrCmp a.package.version b.package.version)
        hrefl hswap htrans rest z
    refine ⟨d, ?_, ?_, ?_⟩
    · simp only [selectBest, List.isEmpty_cons, Bool.false_eq_true, if_false,
        rustMaxBy, List.foldl_cons]
      exact hfold
    · rcases hdmem with hq | hq
      · exact hq ▸ List.mem_cons_self z rest
      · exact List.mem_cons_of_mem _ hq
    · intro x hx
      rcases List.mem_cons.mp hx with hq | hq
      · exact hq ▸ hzd
      · exact hall x hq

/-! ## Batch collection: structural facts feeding claims C1 and C2 -/

theorem collectBatch_spec (maxC : Nat) :
    ∀ (queue : List Requirement) (visited : List String) (batch : List Requirement),
      (∀ a ∈ batch, a.name ∈ visited) →
      (∀ a ∈ batch, a ∈ (collectBatch maxC queue visited batch).1) ∧
      (∀ v ∈ visited, v ∈ (collectBatch maxC queue visited batch).2.1) ∧
      (∀ b ∈ (collectBatch maxC queue visited batch).1, b ∈ batch ∨ b ∈ queue) ∧
      (∀ q ∈ (collectBatch maxC queue visited batch).2.2, q ∈ queue) ∧
      (∀ b ∈ (collectBatch maxC queue visited batch).1,
        b.name ∈ (collectBatch maxC queue visited batch).2.1) ∧
      (∀ n ∈ (collectBatch maxC queue visited batch).2.1,
        n ∈ visited ∨ n ∈ (collectBatch maxC queue visited batch).1.map (·.name)) ∧
      (∀ n ∈ (collectBatch maxC queue visited batch).1.map (·.name),
        n ∈ batch.map (·.name) ∨ n ∉ visited) ∧
      ((batch.map (·.name)).Nodup → ((collectBatch maxC queue visited batch).1.map (·.name)).Nodup) := by
  intro queue
  induction queue with
  | nil =>
    intro visited batch hb
    simp only [collectBatch]
    exact ⟨fun a ha => ha, fun v hv => hv, fun b hbm => Or.inl hbm, by simp,
      fun b hbm => hb b hbm, fun n hn => Or.inl hn, fun n hn => Or.inl hn, id⟩
  | cons req rest ih =>
    intro visited batch hb
    simp only [collectBatch]
    by_cases hlen : batch.length < maxC
    · rw [if_pos hlen]
      by_cases hvis : req.name ∈ visited
      · rw [if_pos hvis]
        obtain ⟨c0, c1, c2, c3, c4, c5, c6, c7⟩ := ih visited batch hb
        exact ⟨c0, c1,
          fun b hbm => (c2 b hbm).elim Or.inl (fun h => Or.inr (List.mem_cons_of_mem _ h)),
          fun q hq => List.mem_cons_of_mem _ (c3 q hq), c4, c5, c6, c7⟩
      · rw [if_neg hvis]
        have hb2 : ∀ a ∈ batch ++ [req], a.name ∈ visited ++ [req.name] := by
          intro a ha
          rcases List.mem_append.mp ha with h | h
          · exact List.mem_append.mpr (Or.inl (hb a h))
          · rw [List.mem_singleton] at h
            subst h
            exact List.mem_append.mpr (Or.inr (List.mem_singleton.mpr rfl))
        obtain ⟨c0, c1, c2, c3, c4, c5, c6, c7⟩ :=
          ih (visited ++ [req.name]) (batch ++ [req]) hb2
        refine ⟨?_, ?_, ?_, ?_, c4, ?_, ?_, ?_⟩
        · intro a ha
          exact c0 a (List.mem_append.mpr (Or.inl ha))
        · intro v hv
          exact c1 v (List.mem_append.mpr (Or.inl hv))
        · intro b hbm
          rcases c2 b hbm with h | h
          · rcases List.mem_append.mp h with h2 | h2
            · exact Or.inl h2
            · rw [List.mem_singleton] at h2
              exact Or.inr (h2 ▸ List.mem_cons_self _ _)
          · exact Or.inr (List.mem_cons_of_mem _ h)
        · intro q hq
          exact List.mem_cons_of_mem _ (c3 q hq)
        · intro n hn
          rcases c5 n hn with h | h
          · rcases List.mem_append.mp h with h2 | h2
            · exact Or.inl h2
            · rw [List.mem_singleton] at h2
              subst h2
              have : req ∈ (collectBatch maxC rest (visited ++ [req.name]) (batch ++ [req])).1 :=
                c0 req (List.mem_append.mpr (Or.inr (List.mem_singleton.mpr rfl)))
              exact Or.inr (List.mem_map.mpr ⟨req, this, rfl⟩)
          · exact Or.inr h
        · intro n hn
          rcases c6 n hn with h | h
          · rw [List.map_append, List.mem_append] at h
            rcases h with h2 | h2
            · exact Or.inl h2
            · simp only [List.map_cons, List.map_nil, List.mem_singleton] at h2
              subst h2
              exact Or.inr hvis
          · exact Or.inr (fun hc => h (List.mem_append.mpr (Or.inl hc)))
        · intro hnd
          refine c7 ?_
          rw [List.map_append, List.nodup_append]
          refine ⟨hnd, by simp, ?_⟩
          intro n hn
          simp only [List.map_cons, List.map_nil, List.mem_singleton]
          intro hc
          subst hc
          obtain ⟨a, ha, han⟩ := List.mem_map.mp hn
          exact hvis (han ▸ hb a ha)
    · rw [if_neg hlen]
      exact ⟨fun a ha => ha, fun v hv => hv, fun b hbm => Or.inl hbm,
        fun q hq => hq, fun b hbm => hb b hbm, fun n hn => Or.inl hn,
        fun n hn => Or.inl hn, id⟩

/-! ## Batch processing: structural facts feeding claims C1 and C2 -/

theorem mem_expandFold_parse (env : Environment) (visited : List String) :
    ∀ (deps : List String) (acc : List Requirement),
      ∀ r ∈ deps.foldl (expandStep env visited) acc,
        r ∈ acc ∨ ∃ s ∈ deps, parseRequirement s = .ok r := by
  intro deps
  induction deps with
  | nil => intro acc r hr; exact Or.inl (by simpa using hr)
  | cons d t ih =>
    intro acc r hr
    rw [List.foldl_cons] at hr
    rcases ih _ r hr with h | ⟨s, hs, hps⟩
    · simp only [expandStep] at h
      split at h
      · exact Or.inl h
      · rename_i dep_req heq
        split at h
        · exact Or.inl h
        · split at h
          · exact Or.inl h
          · rw [List.mem_append] at h
            rcases h with h | h
            · exact Or.inl h
            · rw [List.mem_singleton] at h
              subst h
              exact Or.inr ⟨d, List.mem_cons_self _ _, heq⟩
    · exact Or.inr ⟨s, List.mem_cons_of_mem _ hs, hps⟩

theorem lookupAssoc_mem {α : Type} {l : List (String × α)} {k : String} {v : α}
    (h : lookupAssoc l k = some v) : (k, v) ∈ l := by
  simp only [lookupAssoc, Option.map_eq_some'] at h
  obtain ⟨p, hp, hv⟩ := h
  have hmem := List.mem_of_find?_eq_some hp
  have hpred := List.find?_some hp
  simp only [decide_eq_true_eq] at hpred
  have : p = (k, v) := by
    cases p
    simp only at hpred hv
    simp [hpred, hv]
  exact this ▸ hmem

theorem depNames_of_mem {src : List (String × Package)} {k : String} {p : Package}
    (hmem : (k, p) ∈ src) {s : String} (hs : s ∈ p.requires_dist) {r : Requirement}
    (hr : parseRequirement s = .ok r) : r.name ∈ depNames src := by
  induction src with
  | nil => cases hmem
  | cons e t ih =>
    simp only [depNames, List.foldr_cons, List.mem_append]
    rcases List.mem_cons.mp hmem with h | h
    · subst h
      refine Or.inl (List.mem_filterMap.mpr ⟨s, hs, ?_⟩)
      rw [hr]
    · exact Or.inr (by simpa [depNames] using ih h)

theorem processOne_spec (src : List (String × Package)) (env : Environment)
    (constraints : List (String × List Requirement))
    (acc : RunState × List Requirement × List Package) (req : Requirement) :
    (processOne src env constraints acc req).1.visited = acc.1.visited ∧
    (processOne src env constraints acc req).1.fetchLog = acc.1.fetchLog ∧
    (∀ q ∈ (processOne src env constraints acc req).2.1,
      q ∈ acc.2.1 ∨ q.name ∈ depNames src) := by
  simp only [processOne]
  rcases h : lookupAssoc src req.name with _ | pkg
  · exact ⟨rfl, rfl, fun q hq => Or.inl hq⟩
  · simp only []
    split
    · exact ⟨rfl, rfl, fun q hq => Or.inl hq⟩
    · split
      · exact ⟨rfl, rfl, fun q hq => Or.inl hq⟩
      · refine ⟨rfl, rfl, ?_⟩
        intro q hq
        simp only [List.mem_append] at hq
        rcases hq with hq | hq
        · exact Or.inl hq
        · rcases mem_expandFold_parse env acc.1.visited pkg.requires_dist [] q hq with
            hc | ⟨s, hs, hps⟩
          · cases hc
          · exact Or.inr (depNames_of_mem (lookupAssoc_mem h) hs hps)

theorem processFold_spec (src : List (String × Package)) (env : Environment)
    (constraints : List (String × List Requirement)) :
    ∀ (batch : List Requirement) (acc : RunState × List Requirement × List Package),
      (batch.foldl (processOne src env constraints) acc).1.visited = acc.1.visited ∧
      (batch.foldl (processOne src env constraints) acc).1.fetchLog = acc.1.fetchLog ∧
      (∀ q ∈ (batch.foldl (processOne src env constraints) acc).2.1,
        q ∈ acc.2.1 ∨ q.name ∈ depNames src) := by
  intro batch
  induction batch with
  | nil => intro acc; exact ⟨rfl, rfl, fun q hq => Or.inl hq⟩
  | cons b t ih =>
    intro acc
    rw [List.foldl_cons]
    obtain ⟨ih1, ih2, ih3⟩ := ih (processOne src env constraints acc b)
    obtain ⟨p1, p2, p3⟩ := processOne_spec src env constraints acc b
    refine ⟨ih1.trans p1, ih2.trans p2, ?_⟩
    intro q hq
    rcases ih3 q hq with h | h
    · exact p3 q h
    · exact Or.inr h

theorem processBatch_spec (src : List (String × Package)) (env : Environment)
    (constraints : List (String × List Requirement)) (st : RunState)
    (queue : List Requirement) (resolved : List Package) (batch : List Requirement) :
    (processBatch src env constraints st queue resolved batch).1.visited = st.visited ∧
    (processBatch src env constraints st queue resolved batch).1.fetchLog = st.fetchLog ∧
    (∀ q ∈ (processBatch src env constraints st queue resolved batch).2.1,
      q ∈ queue ∨ q.name ∈ depNames src) :=
  processFold_spec src env constraints batch (st, queue, resolved)

/-! ## Filter-length measure lemmas for the termination argument -/

theorem length_filter_mono {L : List String} {p q : String → Bool}
    (h : ∀ x ∈ L, q x = true → p x = true) :
    (L.filter q).length ≤ (L.filter p).length := by
  induction L with
  | nil => simp
  | cons a T ih =>
    have ih2 := ih (fun x hx => h x (List.mem_cons_of_mem _ hx))
    rcases hqa : q a with _ | _
    · rcases hpa : p a with _ | _
      · simp only [List.filter_cons, hqa, hpa]
        simpa using ih2
      · simp only [List.filter_cons, hqa, hpa]
        simp only [Bool.false_eq_true, if_false, if_true, List.length_cons]
        omega
    · have hpa := h a (List.mem_cons_self _ _) hqa
      simp only [List.filter_cons, hqa, hpa, if_true, List.length_cons]
      omega

theorem length_filter_lt {L : List String} {p q : String → Bool}
    (h : ∀ x ∈ L, q x = true → p x = true) (x : String) (hx : x ∈ L)
    (hp : p x = true) (hq : q x = false) :
    (L.filter q).length < (L.filter p).length := by
  induction L with
  | nil => cases hx
  | cons a T ih =>
    have hmono : (T.filter q).length ≤ (T.filter p).length :=
      length_filter_mono (fun y hy => h y (List.mem_cons_of_mem _ hy))
    by_cases hax : a = x
    · subst hax
      simp only [List.filter_cons, hp, hq]
      simp only [Bool.false_eq_true, if_false, if_true, List.length_cons]
      omega
    · have hxT : x ∈ T := by
        rcases List.mem_cons.mp hx with h2 | h2
        · exact absurd h2.symm hax
        · exact h2
      have ihT := ih (fun y hy => h y (List.mem_cons_of_mem _ hy)) hxT
      rcases hqa : q a with _ | _
      · rcases hpa : p a with _ | _
        · simpa [List.filter_cons, hqa, hpa] using ihT
        · simp only [List.filter_cons, hqa, hpa]
          simp only [Bool.false_eq_true, if_false, if_true, List.length_cons]
          omega
      · have hpa := h a (List.mem_cons_self _ _) hqa
        simp only [List.filter_cons, hqa, hpa, if_true, List.length_cons]
        omega

/-- The resolve loop's combined invariant: with any fuel exceeding the
number of distinct universe names not yet visited, the loop completes
(first conjunct) and its fetch log never repeats a name (second
conjunct). -/
theorem resolveLoop_spec (src : List (String × Package)) (env : Environment)
    (constraints : List (String × List Requirement)) (U : List String)
    (hdep : ∀ n ∈ depNames src, n ∈ U) :
    ∀ (fuel : Nat) (st : RunState) (queue : List Requirement) (resolved : List Package),
      (∀ r ∈ queue, r.name ∈ U) →
      (U.dedup.filter (fun n => decide (n ∉ st.visited))).length < fuel →
      st.fetchLog.Nodup →
      (∀ n ∈ st.fetchLog, n ∈ st.visited) →
      ((resolveLoop src env constraints fuel st queue resolved).1.isSome = true ∧
       (resolveLoop src env constraints fuel st queue resolved).2.Nodup) := by
  intro fuel
  induction fuel with
  | zero => intro st queue resolved _ hm _ _; omega
  | succ fuel ih =>
    intro st queue resolved hqU hm hlog hlogvis
    simp only [resolveLoop]
    by_cases hq : queue = []
    · simp [hq, hlog]
    · rw [if_neg hq]
      obtain ⟨c0, c1, c2, c3, c4, c5, c6, c7⟩ :=
        collectBatch_spec 10 queue st.visited [] (by simp)
      by_cases hb : (collectBatch 10 queue st.visited []).1 = []
      · simp [hb, hlog]
      · rw [if_neg hb]
        obtain ⟨pb1, pb2, pb3⟩ :=
          processBatch_spec src env constraints
            { st with
              visited := (collectBatch 10 queue st.visited []).2.1,
              fetchLog := st.fetchLog ++
                (collectBatch 10 queue st.visited []).1.map (·.name) }
            (collectBatch 10 queue st.visited []).2.2 resolved
            (collectBatch 10 queue st.visited []).1
      -- the batch is non-empty: one of its members strictly shrinks the measure
        obtain ⟨b, hbmem⟩ := List.exists_mem_of_ne_nil _ hb
        have hbq : b ∈ queue := by
          rcases c2 b hbmem with h | h
          · cases h
          · exact h
        have hbname : b.name ∈ (collectBatch 10 queue st.visited []).1.map (·.name) :=
          List.mem_map.mpr ⟨b, hbmem, rfl⟩
        have hbnv : b.name ∉ st.visited := by
          rcases c6 b.name hbname with h | h
          · simp at h
          · exact h
        have hdec :
            ((U.dedup.filter
              (fun n => decide (n ∉ (collectBatch 10 queue st.visited []).2.1))).length) <
            ((U.dedup.filter (fun n => decide (n ∉ st.visited))).length) := by
          refine length_filter_lt ?_ b.name (List.mem_dedup.mpr (hqU b hbq)) ?_ ?_
          · intro x _ hx
            simp only [decide_eq_true_eq] at hx ⊢
            exact fun hc => hx (c1 x hc)
          · simp only [decide_eq_true_eq]
            exact hbnv
          · simp only [decide_eq_false_iff_not, not_not]
            exact c4 b hbmem
        refine ih _ _ _ ?_ ?_ ?_ ?_
        · intro r hr
          rcases pb3 r hr with h | h
          · exact hqU r (c3 r h)
          · exact hdep r.name h
        · rw [pb1]
          simp only []
          omega
        · rw [pb2]
          simp only []
          rw [List.nodup_append]
          refine ⟨hlog, c7 (by simp), ?_⟩
          intro n hn hnbatch
          rcases c6 n hnbatch with h | h
          · simp at h
          · exact h (hlogvis n hn)
        · intro n hn
          rw [pb2] at hn
          rw [pb1]
          simp only [] at hn ⊢
          rcases List.mem_append.mp hn with h | h
          · exact c1 n (hlogvis n h)
          · obtain ⟨b2, hb2, hb2n⟩ := List.mem_map.mp h
            exact hb2n ▸ c4 b2 hb2

/-! ## Claim C1: visited-once and termination -/

/-- C1: in every run, a requirement's name is marked visited before its
fetch starts and duplicates are dropped without fetching, so the fetch log
never repeats a name; the loop always completes (for the finitely many
distinct reachable names the chosen fuel bounds the iterations, and the
first conjunct shows the fuel is never exhausted); and resolving
`["a", "a>=1.0"]` fetches package `a` exactly once. -/
theorem resolve_visited_once :
    (∀ (src : List (String × Package)) (env : Environment)
        (constraints : List (String × List Requirement)) (reqs : List Requirement),
      (resolve src env constraints reqs).1.isSome = true ∧
      (resolve src env constraints reqs).2.Nodup) ∧
    (resolve [("a", pkgA)] linuxEnv [] [reqA, reqAge]).2 = ["a"] := by
  refine ⟨?_, by decide⟩
  intro src env constraints reqs
  simp only [resolve]
  refine resolveLoop_spec src env constraints (nameUniverse src reqs)
    (fun n hn => List.mem_append.mpr (Or.inr hn)) _ _ _ _
    (fun r hr => List.mem_append.mpr (Or.inl (List.mem_map.mpr ⟨r, hr, rfl⟩)))
    ?_ List.nodup_nil (by simp)
  have := List.length_filter_le (fun n => decide (n ∉ ([] : List String)))
    (nameUniverse src reqs).dedup
  simp only [resolveFuel]
  omega

/-! ## Claim C2: resolve never returns an error -/

/-- C2: for every already-parsed input and every metadata table, `resolve`
completes with a result (it has no error path); a failed fetch, a version
failing its own specs, or a version failing a constraint each only omit
that package from the result while the rest of the call proceeds — shown
concretely for all three drop reasons. -/
theorem resolve_always_ok :
    (∀ (src : List (String × Package)) (env : Environment)
        (constraints : List (String × List Requirement)) (reqs : List Requirement),
      (resolve src env constraints reqs).1.isSome = true) ∧
    (resolve [("a", pkgA)] linuxEnv [] [reqA, reqB]).1 = some [pkgA] ∧
    (resolve [("c", pkgC)] linuxEnv [] [reqCge2]).1 = some [] ∧
    (resolve [("c", pkgC)] linuxEnv [("c", [reqCeq2])] [reqCbare]).1 = some [] := by
  refine ⟨?_, by decide, by decide, by decide⟩
  intro src env constraints reqs
  simp only [resolve]
  refine (resolveLoop_spec src env constraints (nameUniverse src reqs)
    (fun n hn => List.mem_append.mpr (Or.inr hn)) _ _ _ _
    (fun r hr => List.mem_append.mpr (Or.inl (List.mem_map.mpr ⟨r, hr, rfl⟩)))
    ?_ List.nodup_nil (by simp)).1
  have := List.length_filter_le (fun n => decide (n ∉ ([] : List String)))
    (nameUniverse src reqs).dedup
  simp only [resolveFuel]
  omega

/-! ## List and trimming lemmas feeding claim C7 -/

theorem dropWhile_all_false {p : Char → Bool} :
    ∀ {l : List Char}, (∀ c ∈ l, p c = false) → l.dropWhile p = l := by
  intro l h
  cases l with
  | nil => rfl
  | cons c t => simp [List.dropWhile, h c (List.mem_cons_self _ _)]

theorem dropWhile_all_true {p : Char → Bool} :
    ∀ {l : List Char}, (∀ c ∈ l, p c = true) → l.dropWhile p = [] := by
  intro l
  induction l with
  | nil => intro _; rfl
  | cons a t ih =>
    intro h
    simp only [List.dropWhile, h a (List.mem_cons_self _ _)]
    exact ih (fun c hc => h c (List.mem_cons_of_mem _ hc))

theorem takeWhile_all_append {p : Char → Bool} :
    ∀ (l1 : List Char) {c : Char} {l2 : List Char},
      (∀ a ∈ l1, p a = true) → p c = false →
      (l1 ++ c :: l2).takeWhile p = l1 := by
  intro l1
  induction l1 with
  | nil => intro c l2 _ hc; simp [List.takeWhile, hc]
  | cons a t ih =>
    intro c l2 h hc
    simp only [List.cons_append, List.takeWhile, h a (List.mem_cons_self _ _),
      List.append_eq]
    rw [ih (fun x hx => h x (List.mem_cons_of_mem _ hx)) hc]

theorem dropWhile_append_char {p : Char → Bool} :
    ∀ (l1 : List Char) {c : Char} {l2 : List Char}, p c = false →
      (l1 ++ c :: l2).dropWhile p = l1.dropWhile p ++ c :: l2 := by
  intro l1
  induction l1 with
  | nil => intro c l2 hc; simp [List.dropWhile, hc]
  | cons a t ih =>
    intro c l2 hc
    rcases ha : p a with _ | _
    · simp [List.dropWhile, ha]
    · simp only [List.cons_append, List.dropWhile, ha]
      exact ih hc

theorem dropWhile_append_split {p : Char → Bool} :
    ∀ (l1 l2 : List Char),
      (l1 ++ l2).dropWhile p =
        if l1.dropWhile p = [] then l2.dropWhile p else l1.dropWhile p ++ l2 := by
  intro l1
  induction l1 with
  | nil => intro l2; simp
  | cons a t ih =>
    intro l2
    rcases ha : p a with _ | _
    · simp [List.dropWhile, ha]
    · simp only [List.cons_append, List.dropWhile, ha]
      exact ih l2

theorem dropWhile_idem {p : Char → Bool} (l : List Char) :
    (l.dropWhile p).dropWhile p = l.dropWhile p := by
  induction l with
  | nil => rfl
  | cons a t ih =>
    rcases ha : p a with _ | _
    · simp [List.dropWhile, ha]
    · simp only [List.dropWhile, ha]
      exact ih

theorem trimLeft_all {l : List Char} (h : ∀ c ∈ l, c.isWhitespace = false) :
    trimLeftChars l = l := dropWhile_all_false h

theorem trimRight_all {l : List Char} (h : ∀ c ∈ l, c.isWhitespace = false) :
    trimRightChars l = l := by
  unfold trimRightChars
  rw [dropWhile_all_false (fun c hc => h c (List.mem_reverse.mp hc))]
  exact List.reverse_reverse l

theorem trimChars_all {l : List Char} (h : ∀ c ∈ l, c.isWhitespace = false) :
    trimChars l = l := by
  unfold trimChars
  rw [trimLeft_all h, trimRight_all h]

theorem trim_around {A : List Char} {c0 : Char} (M : List Char)
    (hA : ∀ c ∈ A, c.isWhitespace = false) (hc0 : c0.isWhitespace = false) :
    trimChars (A ++ c0 :: M) = A ++ c0 :: trimRightChars M := by
  unfold trimChars trimLeftChars trimRightChars
  rw [dropWhile_append_char A hc0, dropWhile_all_false hA]
  have hrev : (A ++ c0 :: M).reverse = M.reverse ++ c0 :: A.reverse := by
    simp
  rw [hrev, dropWhile_append_char M.reverse hc0]
  simp

theorem trimRight_idem (l : List Char) :
    trimRightChars (trimRightChars l) = trimRightChars l := by
  unfold trimRightChars
  rw [List.reverse_reverse, dropWhile_idem]

theorem trimRight_cons (c : Char) (t : List Char) :
    trimRightChars (c :: t) =
      if trimRightChars t = [] then (if c.isWhitespace then [] else [c])
      else c :: trimRightChars t := by
  unfold trimRightChars
  have h1 : (c :: t).reverse = t.reverse ++ [c] := by simp
  rw [h1, dropWhile_append_split]
  have h2 : t.reverse.dropWhile Char.isWhitespace = [] ↔
      (t.reverse.dropWhile Char.isWhitespace).reverse = [] := by
    constructor
    · intro h; rw [h]; rfl
    · intro h
      have := congrArg List.reverse h
      simpa using this
  by_cases hnil : t.reverse.dropWhile Char.isWhitespace = []
  · rw [if_pos hnil, if_pos (h2.mp hnil)]
    rcases hc : c.isWhitespace with _ | _
    · simp [List.dropWhile, hc]
    · simp [List.dropWhile, hc]
  · rw [if_neg hnil, if_neg (fun h => hnil (by
      have := congrArg List.reverse h
      simpa using this))]
    simp

theorem trimLeft_eq_nil_iff {l : List Char} :
    trimLeftChars l = [] ↔ ∀ c ∈ l, c.isWhitespace = true := by
  unfold trimLeftChars
  induction l with
  | nil => simp
  | cons a t ih =>
    rcases ha : a.isWhitespace with _ | _
    · simp [List.dropWhile, ha]
    · simp [List.dropWhile, ha, ih]

theorem trimRight_eq_nil_iff {l : List Char} :
    trimRightChars l = [] ↔ ∀ c ∈ l, c.isWhitespace = true := by
  unfold trimRightChars
  constructor
  · intro h c hc
    have h2 : l.reverse.dropWhile Char.isWhitespace = [] := by
      have := congrArg List.reverse h
      simpa using this
    have h3 := (trimLeft_eq_nil_iff (l := l.reverse)).mp h2
    exact h3 c (List.mem_reverse.mpr hc)
  · intro h
    have h3 : trimLeftChars l.reverse = [] :=
      trimLeft_eq_nil_iff.mpr (fun c hc => h c (List.mem_reverse.mp hc))
    unfold trimLeftChars at h3
    rw [h3]
    rfl

theorem trim_comm (l : List Char) :
    trimLeftChars (trimRightChars l) = trimRightChars (trimLeftChars l) := by
  induction l with
  | nil => rfl
  | cons c t ih =>
    rw [trimRight_cons]
    by_cases hnil : trimRightChars t = []
    · rw [if_pos hnil]
      have htall : ∀ x ∈ t, x.isWhitespace = true := trimRight_eq_nil_iff.mp hnil
      rcases hc : c.isWhitespace with _ | _
      · have h1 : trimLeftChars (c :: t) = c :: t := by
          simp [trimLeftChars, List.dropWhile, hc]
        rw [if_neg (by simp [hc]), h1, trimRight_cons, hnil]
        simp [hc, trimLeftChars, List.dropWhile]
      · have h1 : trimLeftChars (c :: t) = trimLeftChars t := by
          simp [trimLeftChars, List.dropWhile, hc]
        rw [if_pos rfl, h1]
        have h2 : trimLeftChars t = [] := by
          rw [trimLeft_eq_nil_iff]
          exact htall
        rw [h2]
        rfl
    · rw [if_neg hnil]
      rcases hc : c.isWhitespace with _ | _
      · have h1 : trimLeftChars (c :: t) = c :: t := by
          simp [trimLeftChars, List.dropWhile, hc]
        have h2 : trimLeftChars (c :: trimRightChars t) = c :: trimRightChars t := by
          simp [trimLeftChars, List.dropWhile, hc]
        rw [h1, h2, trimRight_cons]
        rw [if_neg hnil]
      · have h1 : trimLeftChars (c :: t) = trimLeftChars t := by
          simp [trimLeftChars, List.dropWhile, hc]
        have h2 : trimLeftChars (c :: trimRightChars t) = trimLeftChars (trimRightChars t) := by
          simp [trimLeftChars, List.dropWhile, hc]
        rw [h1, h2, ih]

theorem trimChars_trimRight (l : List Char) :
    trimChars (trimRightChars l) = trimChars l := by
  unfold trimChars
  rw [trim_comm, trimRight_idem]

theorem findIdxChar_none {pred : Char → Bool} :
    ∀ {l : List Char}, (∀ c ∈ l, pred c = false) → findIdxChar pred l = none := by
  intro l
  induction l with
  | nil => intro _; rfl
  | cons a t ih =>
    intro h
    simp only [findIdxChar, h a (List.mem_cons_self _ _)]
    rw [ih (fun c hc => h c (List.mem_cons_of_mem _ hc))]
    rfl

theorem findIdxChar_append {pred : Char → Bool} :
    ∀ (A : List Char) {c : Char} {R : List Char},
      (∀ a ∈ A, pred a = false) → pred c = true →
      findIdxChar pred (A ++ c :: R) = some A.length := by
  intro A
  induction A with
  | nil => intro c R _ hc; simp [findIdxChar, hc]
  | cons a t ih =>
    intro c R h hc
    simp only [List.cons_append, findIdxChar, h a (List.mem_cons_self _ _),
      Bool.false_eq_true, if_false, List.append_eq]
    rw [ih (fun x hx => h x (List.mem_cons_of_mem _ hx)) hc]
    simp

theorem splitOnSep_no_sep {sep : Char} :
    ∀ {x : List Char}, (∀ c ∈ x, c ≠ sep) → splitOnSep sep x = [x] := by
  intro x
  induction x with
  | nil => intro _; rfl
  | cons a t ih =>
    intro h
    simp only [splitOnSep, if_neg (h a (List.mem_cons_self _ _))]
    rw [ih (fun c hc => h c (List.mem_cons_of_mem _ hc))]

theorem splitOnSep_append {sep : Char} :
    ∀ (x : List Char) {R : List Char}, (∀ c ∈ x, c ≠ sep) →
      splitOnSep sep (x ++ sep :: R) = x :: splitOnSep sep R := by
  intro x
  induction x with
  | nil => intro R _; simp [splitOnSep]
  | cons a t ih =>
    intro R h
    simp only [List.cons_append, splitOnSep, if_neg (h a (List.mem_cons_self _ _)),
      List.append_eq]
    rw [ih (fun c hc => h c (List.mem_cons_of_mem _ hc))]

theorem splitOnSep_intercalate {sep : Char} :
    ∀ (xs : List (List Char)), xs ≠ [] → (∀ x ∈ xs, ∀ c ∈ x, c ≠ sep) →
      splitOnSep sep (intercalateChar sep xs) = xs := by
  intro xs
  induction xs with
  | nil => intro h _; exact absurd rfl h
  | cons x rest ih =>
    intro _ h
    cases rest with
    | nil => exact splitOnSep_no_sep (h x (List.mem_cons_self _ _))
    | cons y t =>
      show splitOnSep sep (x ++ sep :: intercalateChar sep (y :: t)) = _
      rw [splitOnSep_append x (h x (List.mem_cons_self _ _))]
      rw [ih (by simp) (fun z hz => h z (List.mem_cons_of_mem _ hz))]

theorem mem_intercalate {sep : Char} :
    ∀ {xs : List (List Char)} {c : Char}, c ∈ intercalateChar sep xs →
      c = sep ∨ ∃ x ∈ xs, c ∈ x := by
  intro xs
  induction xs with
  | nil => intro c hc; cases hc
  | cons x rest ih =>
    intro c hc
    cases rest with
    | nil => exact Or.inr ⟨x, List.mem_cons_self _ _, hc⟩
    | cons y t =>
      simp only [intercalateChar, List.mem_append, List.mem_cons] at hc
      rcases hc with hc | hc | hc
      · exact Or.inr ⟨x, List.mem_cons_self _ _, hc⟩
      · exact Or.inl hc
      · rcases ih hc with h | ⟨z, hz, hcz⟩
        · exact Or.inl h
        · exact Or.inr ⟨z, List.mem_cons_of_mem _ hz, hcz⟩

/-! ## Character-class facts for claim C7 -/

theorem ne_of_pred {p : Char → Bool} {c d : Char} (hc : p c = true)
    (hd : p d = false) : c ≠ d := by
  intro he
  subst he
  rw [hc] at hd
  cases hd

theorem notWs_of_nameChar {c : Char} (h : isNameChar c = true) :
    c.isWhitespace = false := by
  rcases hw : c.isWhitespace with _ | _
  · rfl
  · exfalso
    simp only [Char.isWhitespace, Bool.or_eq_true, decide_eq_true_eq] at hw
    rcases hw with ((h1 | h1) | h1) | h1 <;> subst h1 <;> exact absurd h (by decide)

theorem notWs_of_versionChar {c : Char} (h : isVersionChar c = true) :
    c.isWhitespace = false := by
  rcases hw : c.isWhitespace with _ | _
  · rfl
  · exfalso
    simp only [Char.isWhitespace, Bool.or_eq_true, decide_eq_true_eq] at hw
    rcases hw with ((h1 | h1) | h1) | h1 <;> subst h1 <;> exact absurd h (by decide)

theorem opChars_not_ws : ∀ (op : VersionOp), ∀ c ∈ opChars op,
    c.isWhitespace = false ∧ c ≠ ';' ∧ c ≠ ',' ∧ c ≠ ']' := by
  intro op
  cases op <;> decide

theorem opChars_ne_nil : ∀ op : VersionOp, opChars op ≠ [] := by
  intro op
  cases op <;> decide

theorem recognizeOp_opChars (op : VersionOp) (v0 : Char) (vt : List Char)
    (hv0 : isVersionChar v0 = true) :
    recognizeOp (opChars op ++ v0 :: vt) = some (op, (opChars op).length) := by
  have hne : v0 ≠ '=' := ne_of_pred hv0 (by decide)
  cases op <;>
    simp only [opChars, List.cons_append, List.nil_append, recognizeOp,
      List.take_succ_cons, List.take_zero, List.take, List.length_cons,
      List.length_nil, List.length_singleton] <;>
    simp [hne]

theorem specsChars_facts {specs : List VersionSpec} (hwf : SpecsWf specs) :
    ∀ c ∈ intercalateChar ',' (specs.map specClause),
      c.isWhitespace = false ∧ c ≠ ';' := by
  intro c hc
  rcases mem_intercalate hc with h | ⟨x, hx, hcx⟩
  · subst h
    exact ⟨by decide, by decide⟩
  · obtain ⟨sp, hsp, rfl⟩ := List.mem_map.mp hx
    rcases List.mem_append.mp hcx with h | h
    · obtain ⟨h1, h2, _, _⟩ := opChars_not_ws sp.op c h
      exact ⟨h1, h2⟩
    · have hv := (hwf sp hsp).2 c h
      exact ⟨notWs_of_versionChar hv, ne_of_pred hv (by decide)⟩

theorem filter_all_true {p : Char → Bool} :
    ∀ {l : List Char}, (∀ c ∈ l, p c = true) → l.filter p = l := by
  intro l
  induction l with
  | nil => intro _; rfl
  | cons a t ih =>
    intro h
    rw [List.filter_cons, if_pos (h a (List.mem_cons_self _ _))]
    rw [ih (fun c hc => h c (List.mem_cons_of_mem _ hc))]

theorem parseSpecsGo_compose :
    ∀ (specs : List VersionSpec) (fuel : Nat), specs ≠ [] → SpecsWf specs →
      (intercalateChar ',' (specs.map specClause)).length < fuel →
      parseSpecsGo fuel (intercalateChar ',' (specs.map specClause)) = .ok specs := by
  intro specs
  induction specs with
  | nil => intro fuel h _ _; exact absurd rfl h
  | cons x rest ih =>
    intro fuel _ hwf hfuel
    obtain ⟨hvne, hvc⟩ := hwf x (List.mem_cons_self _ _)
    cases hvd : x.version.data with
    | nil => exact absurd hvd hvne
    | cons v0 vt =>
    have hv0 : isVersionChar v0 = true := hvc v0 (by rw [hvd]; exact List.mem_cons_self _ _)
    have hvall : ∀ c ∈ v0 :: vt, isVersionChar c = true := by
      intro c hc
      exact hvc c (by rw [hvd]; exact hc)
    have hvnws : ∀ c ∈ v0 :: vt, c.isWhitespace = false :=
      fun c hc => notWs_of_versionChar (hvall c hc)
    have hvnc : ∀ c ∈ v0 :: vt, ((c = ',') = False) := by
      intro c hc
      simp [ne_of_pred (hvall c hc) (show isVersionChar ',' = false by decide)]
    cases fuel with
    | zero => omega
    | succ f =>
    cases rest with
    | nil =>
      have hcl : intercalateChar ',' ([x].map specClause) = opChars x.op ++ v0 :: vt := by
        simp [intercalateChar, specClause, hvd]
      rw [hcl]
      have hallnws : ∀ c ∈ opChars x.op ++ v0 :: vt, c.isWhitespace = false := by
        intro c hc
        rcases List.mem_append.mp hc with h | h
        · exact (opChars_not_ws x.op c h).1
        · exact hvnws c h
      simp only [parseSpecsGo]
      rw [trimLeft_all hallnws]
      rw [if_neg (by simp [opChars_ne_nil x.op])]
      rw [recognizeOp_opChars x.op v0 vt hv0]
      simp only []
      rw [List.drop_left]
      rw [trimLeft_all hvnws]
      rw [findIdxChar_none (by
        intro c hc
        simp only [decide_eq_false_iff_not]
        intro he
        exact absurd he (by simpa using (hvnc c hc)))]
      simp only [Option.getD_none]
      rw [List.take_length, filter_all_true hvall]
      rw [if_neg (by simp)]
      rw [List.drop_length]
      have : (⟨x.op, String.mk (v0 :: vt)⟩ : VersionSpec) = x := by
        have : String.mk (v0 :: vt) = x.version := by
          rw [← hvd]
        rw [this]
      rw [this]
    | cons y t =>
      have hcl : intercalateChar ',' ((x :: y :: t).map specClause) =
          opChars x.op ++ ((v0 :: vt) ++ ',' ::
            intercalateChar ',' ((y :: t).map specClause)) := by
      -- one clause, a comma, then the remaining clauses
        simp [intercalateChar, specClause, hvd]
      rw [hcl]
      have hrestwf : SpecsWf (y :: t) := fun sp hsp => hwf sp (List.mem_cons_of_mem _ hsp)
      have hallnws : ∀ c ∈ opChars x.op ++ ((v0 :: vt) ++ ',' ::
          intercalateChar ',' ((y :: t).map specClause)), c.isWhitespace = false := by
        intro c hc
        rcases List.mem_append.mp hc with h | h
        · exact (opChars_not_ws x.op c h).1
        · rcases List.mem_append.mp h with h2 | h2
          · exact hvnws c h2
          · rcases List.mem_cons.mp h2 with h3 | h3
            · subst h3; decide
            · exact (specsChars_facts hrestwf c h3).1
      simp only [parseSpecsGo]
      rw [trimLeft_all hallnws]
      rw [if_neg (by simp [opChars_ne_nil x.op])]
      have hrecog : recognizeOp (opChars x.op ++ ((v0 :: vt) ++ ',' ::
          intercalateChar ',' ((y :: t).map specClause))) =
          some (x.op, (opChars x.op).length) := by
        have h1 : (v0 :: vt) ++ ',' :: intercalateChar ',' ((y :: t).map specClause) =
            v0 :: (vt ++ ',' :: intercalateChar ',' ((y :: t).map specClause)) := by
          simp
        rw [h1]
        exact recognizeOp_opChars x.op v0 _ hv0
      rw [hrecog]
      simp only []
      rw [List.drop_left]
      have hmidnws : ∀ c ∈ (v0 :: vt) ++ ',' ::
          intercalateChar ',' ((y :: t).map specClause), c.isWhitespace = false := by
        intro c hc
        exact hallnws c (List.mem_append.mpr (Or.inr hc))
      rw [trimLeft_all hmidnws]
      rw [findIdxChar_append (v0 :: vt) (by
        intro a ha
        simp only [decide_eq_false_iff_not]
        intro he
        exact absurd he (by simpa using (hvnc a ha))) (by simp)]
      simp only [Option.getD_some]
      rw [List.take_left, filter_all_true hvall]
      rw [if_neg (by simp)]
      rw [List.drop_left]
      have hih := ih f (by simp) hrestwf (by
        have h1 := hfuel
        rw [hcl] at h1
        simp only [List.length_append, List.length_cons] at h1 ⊢
        have h2 : (opChars x.op).length ≥ 1 := by
          cases x.op <;> simp [opChars]
        omega)
      simp only [hih]
      have : (⟨x.op, String.mk (v0 :: vt)⟩ : VersionSpec) = x := by
        have h3 : String.mk (v0 :: vt) = x.version := by
          rw [← hvd]
        rw [h3]
      rw [this]

/-! ## Claim C7: the requirement-string round trip -/

/-- C7 counterexample: the marker is not preserved verbatim — for the
composed string `p[e]==1.0; m` the text after the first semicolon is
`" m"`, yet `parse` returns marker `"m"` (trimmed). -/
theorem parse_marker_not_verbatim :
    parseRequirement (composeReq "p".data [['e']] [⟨VersionOp.eq, "1.0"⟩] " m".data) =
      .ok ⟨"p", [⟨VersionOp.eq, "1.0"⟩], ["e"], some "m"⟩ ∧ ("m" : String) ≠ " m" := by
  decide

/-- C7 (amended): for every requirement string composed as
`name[extras]specs;marker` from name characters, a non-empty bracketed
extras list of name-character tokens, well-formed version clauses and an
arbitrary marker text, `parse` returns the name lowercased with underscores
replaced by hyphens, the clauses in their textual order, the bracketed
extras — and the marker as the text after the first semicolon with
surrounding whitespace trimmed (not verbatim). -/
theorem parse_preserves_components (name : List Char) (extras : List (List Char))
    (specs : List VersionSpec) (marker : List Char)
    (hname2 : ∀ c ∈ name, isNameChar c = true)
    (hex1 : extras ≠ []) (hex2 : ∀ e ∈ extras, e ≠ [] ∧ ∀ c ∈ e, isNameChar c = true)
    (hspecs : SpecsWf specs) :
    parseRequirement (composeReq name extras specs marker) =
      .ok ⟨String.mk ((name.map Char.toLower).map (fun c => if c = '_' then '-' else c)),
           specs, extras.map String.mk, some (String.mk (trimChars marker))⟩ := by
  have hEchars : ∀ c ∈ intercalateChar ',' extras,
      c.isWhitespace = false ∧ c ≠ ';' ∧ c ≠ ']' := by
    intro c hc
    rcases mem_intercalate hc with h | ⟨x, hx, hcx⟩
    · subst h; refine ⟨by decide, by decide, by decide⟩
    · have hn := (hex2 x hx).2 c hcx
      exact ⟨notWs_of_nameChar hn, ne_of_pred hn (by decide), ne_of_pred hn (by decide)⟩
  have hSchars := specsChars_facts hspecs
  have hAchars : ∀ c ∈ name ++ '[' :: (intercalateChar ',' extras ++
      ']' :: intercalateChar ',' (specs.map specClause)),
      c.isWhitespace = false ∧ c ≠ ';' := by
    intro c hc
    rcases List.mem_append.mp hc with h | h
    · have hn := hname2 c h
      exact ⟨notWs_of_nameChar hn, ne_of_pred hn (by decide)⟩
    · rcases List.mem_cons.mp h with h2 | h2
      · subst h2; exact ⟨by decide, by decide⟩
      · rcases List.mem_append.mp h2 with h3 | h3
        · exact ⟨(hEchars c h3).1, (hEchars c h3).2.1⟩
        · rcases List.mem_cons.mp h3 with h4 | h4
          · subst h4; exact ⟨by decide, by decide⟩
          · exact hSchars c h4
  have hshape : name ++ '[' :: (intercalateChar ',' extras ++
      ']' :: (intercalateChar ',' (specs.map specClause) ++ ';' :: marker)) =
      (name ++ '[' :: (intercalateChar ',' extras ++
        ']' :: intercalateChar ',' (specs.map specClause))) ++ ';' :: marker := by
    simp
  have h0 : trimChars (name ++ '[' :: (intercalateChar ',' extras ++
      ']' :: (intercalateChar ',' (specs.map specClause) ++ ';' :: marker))) =
      (name ++ '[' :: (intercalateChar ',' extras ++
        ']' :: intercalateChar ',' (specs.map specClause))) ++ ';' :: trimRightChars marker := by
    rw [hshape]
    exact trim_around marker (fun c hc => (hAchars c hc).1) (by decide)
  have h1 : findIdxChar (fun x => decide (x = ';'))
      ((name ++ '[' :: (intercalateChar ',' extras ++
        ']' :: intercalateChar ',' (specs.map specClause))) ++ ';' :: trimRightChars marker) =
      some (name ++ '[' :: (intercalateChar ',' extras ++
        ']' :: intercalateChar ',' (specs.map specClause))).length := by
    refine findIdxChar_append _ ?_ (by simp)
    intro a ha
    simp only [decide_eq_false_iff_not]
    exact (hAchars a ha).2
  have h2 : ((name ++ '[' :: (intercalateChar ',' extras ++
      ']' :: intercalateChar ',' (specs.map specClause))) ++ ';' :: trimRightChars marker).take
      (name ++ '[' :: (intercalateChar ',' extras ++
        ']' :: intercalateChar ',' (specs.map specClause))).length =
      name ++ '[' :: (intercalateChar ',' extras ++
        ']' :: intercalateChar ',' (specs.map specClause)) := List.take_left _ _
  have h3 : trimChars (name ++ '[' :: (intercalateChar ',' extras ++
      ']' :: intercalateChar ',' (specs.map specClause))) =
      name ++ '[' :: (intercalateChar ',' extras ++
        ']' :: intercalateChar ',' (specs.map specClause)) :=
    trimChars_all (fun c hc => (hAchars c hc).1)
  have h4 : ((name ++ '[' :: (intercalateChar ',' extras ++
      ']' :: intercalateChar ',' (specs.map specClause))) ++ ';' :: trimRightChars marker).drop
      ((name ++ '[' :: (intercalateChar ',' extras ++
        ']' :: intercalateChar ',' (specs.map specClause))).length + 1) =
      trimRightChars marker := by
    have hre : (name ++ '[' :: (intercalateChar ',' extras ++
        ']' :: intercalateChar ',' (specs.map specClause))) ++ ';' :: trimRightChars marker =
        ((name ++ '[' :: (intercalateChar ',' extras ++
          ']' :: intercalateChar ',' (specs.map specClause))) ++ [';']) ++ trimRightChars marker := by
      simp
    have hlen : (name ++ '[' :: (intercalateChar ',' extras ++
        ']' :: intercalateChar ',' (specs.map specClause))).length + 1 =
        ((name ++ '[' :: (intercalateChar ',' extras ++
          ']' :: intercalateChar ',' (specs.map specClause))) ++ [';']).length := by
      simp
      omega
    rw [hre, hlen, List.drop_left]
  have h5 : trimChars (trimRightChars marker) = trimChars marker := trimChars_trimRight marker
  have h6 : (name ++ '[' :: (intercalateChar ',' extras ++
      ']' :: intercalateChar ',' (specs.map specClause))).dropWhile isNameChar =
      '[' :: (intercalateChar ',' extras ++
        ']' :: intercalateChar ',' (specs.map specClause)) := by
    rw [dropWhile_append_char name (by decide), dropWhile_all_true hname2]
    rfl
  have h7 : (name ++ '[' :: (intercalateChar ',' extras ++
      ']' :: intercalateChar ',' (specs.map specClause))).takeWhile isNameChar = name :=
    takeWhile_all_append name hname2 (by decide)
  have h8 : findIdxChar (fun x => decide (x = ']'))
      ('[' :: (intercalateChar ',' extras ++
        ']' :: intercalateChar ',' (specs.map specClause))) =
      some ('[' :: intercalateChar ',' extras).length := by
    have hsh : '[' :: (intercalateChar ',' extras ++
        ']' :: intercalateChar ',' (specs.map specClause)) =
        ('[' :: intercalateChar ',' extras) ++
          ']' :: intercalateChar ',' (specs.map specClause) := by
      simp
    rw [hsh]
    refine findIdxChar_append _ ?_ (by simp)
    intro a ha
    simp only [decide_eq_false_iff_not]
    rcases List.mem_cons.mp ha with h | h
    · subst h; decide
    · exact (hEchars a h).2.2
  have h9 : (intercalateChar ',' extras ++
      ']' :: intercalateChar ',' (specs.map specClause)).take
      (('[' :: intercalateChar ',' extras).length - 1) = intercalateChar ',' extras := by
    simp only [List.length_cons, Nat.add_sub_cancel]
    exact List.take_left _ _
  have h10 : splitOnSep ',' (intercalateChar ',' extras) = extras :=
    splitOnSep_intercalate extras hex1
      (fun x hx c hc => ne_of_pred ((hex2 x hx).2 c hc) (by decide))
  have h11 : extras.map (fun e => String.mk (trimChars e)) = extras.map String.mk := by
    refine List.map_congr_left ?_
    intro e he
    rw [trimChars_all (fun c hc => notWs_of_nameChar ((hex2 e he).2 c hc))]
  have h12 : ('[' :: (intercalateChar ',' extras ++
      ']' :: intercalateChar ',' (specs.map specClause))).drop
      (('[' :: intercalateChar ',' extras).length + 1) =
      intercalateChar ',' (specs.map specClause) := by
    have hsh : '[' :: (intercalateChar ',' extras ++
        ']' :: intercalateChar ',' (specs.map specClause)) =
        (('[' :: intercalateChar ',' extras) ++ [']']) ++
          intercalateChar ',' (specs.map specClause) := by
      simp
    have hlen : ('[' :: intercalateChar ',' extras).length + 1 =
        (('[' :: intercalateChar ',' extras) ++ [']']).length := by
      simp
    rw [hsh, hlen, List.drop_left]
  have h13 : trimChars (intercalateChar ',' (specs.map specClause)) =
      intercalateChar ',' (specs.map specClause) :=
    trimChars_all (fun c hc => (hSchars c hc).1)
  have hspecsRes : (if intercalateChar ',' (specs.map specClause) = []
      then (Except.ok [] : Except String (List VersionSpec))
      else parseVersionSpecs (intercalateChar ',' (specs.map specClause))) = .ok specs := by
    cases specs with
    | nil => simp [intercalateChar]
    | cons sp0 srest =>
      have hSne : intercalateChar ',' ((sp0 :: srest).map specClause) ≠ [] := by
        cases srest with
        | nil =>
          simp only [List.map_cons, List.map_nil, intercalateChar, specClause]
          intro hc
          exact opChars_ne_nil sp0.op (by
            rcases List.append_eq_nil.mp hc with ⟨h, _⟩
            exact h)
        | cons y t =>
          simp only [List.map_cons, intercalateChar]
          simp
      rw [if_neg hSne]
      exact parseSpecsGo_compose (sp0 :: srest)
        ((intercalateChar ',' ((sp0 :: srest).map specClause)).length + 1)
        (by simp) hspecs (by omega)
  simp only [composeReq, parseRequirement]
  simp only [h0, h1, h2, h3, h4, h5, h6, h7, h8, h9, h10, h11, h12, h13, hspecsRes]
  simp only [List.drop_succ_cons, List.drop_zero, h9, h10, h11, Option.map_some']

/-- C7 witness: the amended round trip applied to a concrete composed
requirement string with underscore name, two extras, two clauses and a
marker. -/
theorem parse_preserves_components_witness :
    parseRequirement (composeReq "Big_Pkg".data [['x'], ['y']]
        [⟨VersionOp.gtEq, "1.0"⟩, ⟨VersionOp.lt, "2.0"⟩] "os_name == 'nt'".data) =
      .ok ⟨String.mk (("Big_Pkg".data.map Char.toLower).map
            (fun c => if c = '_' then '-' else c)),
          [⟨VersionOp.gtEq, "1.0"⟩, ⟨VersionOp.lt, "2.0"⟩],
          [['x'], ['y']].map String.mk,
          some (String.mk (trimChars "os_name == 'nt'".data))⟩ :=
  parse_preserves_components "Big_Pkg".data [['x'], ['y']]
    [⟨VersionOp.gtEq, "1.0"⟩, ⟨VersionOp.lt, "2.0"⟩] "os_name == 'nt'".data
    (by decide) (by decide) (by decide) (by unfold SpecsWf; decide)

/-- C4 witness: the amended statement applied to a concrete two-candidate
list. -/
theorem selectBest_preferLatest_string_max_witness :
    ∃ c, selectBest .preferLatest
        [⟨⟨"pkg", "1.0.0", none, none, none, none, none, [], []⟩, true, false, none⟩,
         ⟨⟨"pkg", "2.0.0", none, none, none, none, none, [], []⟩, false, false, none⟩] = some c ∧
      c ∈ [⟨⟨"pkg", "1.0.0", none, none, none, none, none, [], []⟩, true, false, none⟩,
           (⟨⟨"pkg", "2.0.0", none, none, none, none, none, [], []⟩, false, false, none⟩ : Candidate)] ∧
      ∀ x ∈ [⟨⟨"pkg", "1.0.0", none, none, none, none, none, [], []⟩, true, false, none⟩,
             (⟨⟨"pkg", "2.0.0", none, none, none, none, none, [], []⟩, false, false, none⟩ : Candidate)],
        rustStrCmp x.package.version c.package.version ≠ .gt :=
  selectBest_preferLatest_string_max _ (by decide)

end PipRs
